import Mathlib

/-!
# Verification of the monitoring-ai core (chunking, hashing, ingestion, retrieval, agent loop)

This file gives a shallow embedding, in Lean 4, of the algorithmic core of the
`syspons-dev/monitoring-ai` repository:

* the text-chunking engine (`src/.../utils/text-chunking.ts`),
* the document hasher (`src/.../utils/document-hash.ts`),
* the ingestion pipeline and retrieval query engine
  (`EmbeddingController.addDocumentsFromFiles` / `queryDocuments`),
* the iterative tool-calling agent loop (`invokeAgent` in
  `src/graphs/src/utils/settings.ts`).

Texts are modelled as `List Char` (named `Str` below) so that every string
operation used by the source (trim, split, substring, slice) is an executable,
provable Lean function.  JavaScript numbers that can go negative
(`startIndex`, `chunkSize - overlap`) are modelled as `Int`.  External
capabilities (SHA-256, document decoders, the vector-similarity primitive,
the language model, JSON serialisation) are parameters of the embedding,
exactly as the specification treats them (spec §1, §6).  The `while` loop of
`chunkByFixedSize`, which is not structurally terminating, is given explicit
fuel and returns `none` when the fuel runs out; all other recursions are
structural.
-/

namespace MonitoringAi

/-- Texts / byte buffers, modelled as lists of characters. -/
abbrev Str := List Char

/-- Whitespace predicate used by `trim` (the characters relevant to this
    code base; JavaScript's `trim` strips these, among others). -/
def isWs (c : Char) : Bool :=
  c = ' ' || c = '\t' || c = '\n' || c = '\r' || c = '\x0b' || c = '\x0c'

/-- `String.prototype.trimStart`. -/
def trimLeftStr (s : Str) : Str := s.dropWhile isWs

/-- `String.prototype.trimEnd`. -/
def trimRightStr (s : Str) : Str := (s.reverse.dropWhile isWs).reverse

/-- `String.prototype.trim`. -/
def trimStr (s : Str) : Str := trimRightStr (trimLeftStr s)

/-- `String.prototype.substring(a, b)`: clamps both arguments into
    `[0, length]` and swaps them when `a > b`. -/
def jsSubstring (s : Str) (a b : Int) : Str :=
  let len : Int := s.length
  let a' := min (max a 0) len
  let b' := min (max b 0) len
  let lo := (min a' b').toNat
  let hi := (max a' b').toNat
  (s.drop lo).take (hi - lo)

/-- `String.prototype.slice(a)` (one-argument form): a negative `a` counts
    from the end of the string. -/
def jsSliceFrom (s : Str) (a : Int) : Str :=
  let len : Int := s.length
  let start := if a < 0 then max (len + a) 0 else min a len
  s.drop start.toNat

/-- Auxiliary scanner for `String.prototype.split(sep)` with a non-empty
    separator `sh :: st`: emits the accumulated segment whenever the
    separator occurs at the front of the remaining input.  The `Nat`
    argument is structural fuel; every step consumes at least one input
    character, so fuel `s.length` always suffices. -/
def splitSepAux (sh : Char) (st : List Char) : Nat → Str → Str → List Str
  | 0, _, cur => [cur.reverse]
  | _ + 1, [], cur => [cur.reverse]
  | fuel + 1, c :: rest, cur =>
    if (sh :: st).isPrefixOf (c :: rest) then
      cur.reverse :: splitSepAux sh st fuel ((c :: rest).drop (st.length + 1)) []
    else
      splitSepAux sh st fuel rest (c :: cur)

/-- `String.prototype.split(sep)`.  With the empty separator, JavaScript
    splits into individual characters. -/
def jsSplit (sep : Str) (s : Str) : List Str :=
  match sep with
  | [] => s.map (fun c => [c])
  | sh :: st => splitSepAux sh st s.length s []

/-! ## ChunkingEngine (`text-chunking.ts`) -/

/-- `ChunkingStrategy` from `@syspons/monitoring-ai-common`. -/
inductive ChunkingStrategy
  | fixed | sentence | paragraph | recursive
deriving DecidableEq, Repr

/-- `ChunkingOptions`: all fields optional, defaulted by `chunkText`. -/
structure ChunkingOptions where
  strategy : Option ChunkingStrategy := none
  chunkSize : Option Int := none
  chunkOverlap : Option Int := none
  separators : Option (List Str) := none
deriving DecidableEq, Repr

def DEFAULT_CHUNK_SIZE : Int := 1000
def DEFAULT_CHUNK_OVERLAP : Int := 200
def DEFAULT_SEPARATORS : List Str :=
  ["\n\n".toList, "\n".toList, ". ".toList, " ".toList, []]

/-- The loop body of `chunkByFixedSize`, with explicit fuel.  The source is a
    `while (startIndex < text.length)` loop whose per-iteration update is
    `startIndex += chunkSize - overlap; if (startIndex <= 0) startIndex = chunkSize`.
    `none` means the fuel was exhausted (the loop had not terminated). -/
def chunkByFixedSizeAux (text : Str) (chunkSize overlap : Int) :
    Nat → Int → List Str → Option (List Str)
  | 0, _, _ => none
  | fuel + 1, startIndex, acc =>
    if startIndex < (text.length : Int) then
      let endIndex := min (startIndex + chunkSize) (text.length : Int)
      let chunk := trimStr (jsSubstring text startIndex endIndex)
      let acc' := if chunk.length > 0 then acc ++ [chunk] else acc
      let s1 := startIndex + chunkSize - overlap
      let s2 := if s1 ≤ 0 then chunkSize else s1
      chunkByFixedSizeAux text chunkSize overlap fuel s2 acc'
    else
      some acc

/-- `chunkByFixedSize(text, chunkSize, overlap)`. -/
def chunkByFixedSizeFuel (fuel : Nat) (text : Str) (chunkSize overlap : Int) :
    Option (List Str) :=
  chunkByFixedSizeAux text chunkSize overlap fuel 0 []

/-- Terminator characters of the sentence regex `[^.!?]+[.!?]+`. -/
def isSentenceEnd (c : Char) : Bool := c = '.' || c = '!' || c = '?'

/-- All matches of `/[^.!?]+[.!?]+/g` in order: maximal runs of
    non-terminators followed by a maximal run of terminators; leading
    terminators and a trailing unterminated run are not matched. -/
def sentenceTokens : Str → List Str
  | [] => []
  | c :: rest =>
    if isSentenceEnd c then
      -- a leading terminator can start no match of the regex: skip it
      sentenceTokens rest
    else
      let a := (c :: rest).takeWhile (fun x => !(isSentenceEnd x))
      let r1 := (c :: rest).dropWhile (fun x => !(isSentenceEnd x))
      let b := r1.takeWhile isSentenceEnd
      let r2 := r1.dropWhile isSentenceEnd
      if b.isEmpty then [] else (a ++ b) :: sentenceTokens r2
termination_by l => l.length
decreasing_by
  · simp only [List.length_cons]; omega
  · rename_i hc
    have h1 : ((sh :: st).dropWhile (fun x => !(isSentenceEnd x))) =
        st.dropWhile (fun x => !(isSentenceEnd x)) := by
      simp [List.dropWhile_cons, hc]
    have h2 := (List.dropWhile_suffix (l := st) (fun x => !(isSentenceEnd x))).length_le
    have h3 := (List.dropWhile_suffix
      (l := st.dropWhile (fun x => !(isSentenceEnd x))) isSentenceEnd).length_le
    simp only [h1, List.length_cons]
    omega

/-- One step of the sentence-packing loop of `chunkBySentence`. -/
def sentencePackStep (maxChunkSize : Int) (st : List Str × Str) (sentence : Str) :
    List Str × Str :=
  let t := trimStr sentence
  let (chunks, current) := st
  if (current.length : Int) + t.length + 1 ≤ maxChunkSize then
    (chunks, current ++ (if current.length > 0 then ' ' :: t else t))
  else if current.length > 0 then
    (chunks ++ [current], t)
  else
    (chunks, t)

/-- `chunkBySentence(text, maxChunkSize)`. -/
def chunkBySentence (text : Str) (maxChunkSize : Int) : List Str :=
  let sentences := match sentenceTokens text with
    | [] => [text]   -- `text.match(...) || [text]`
    | ts => ts
  let (chunks, current) := sentences.foldl (sentencePackStep maxChunkSize) ([], [])
  if current.length > 0 then chunks ++ [current] else chunks

/-- Split on `/\n\n+/`: runs of two or more newlines are delimiters. -/
def paraSplitAux : Str → Str → List Str
  | [], cur => [cur.reverse]
  | '\n' :: rest, cur =>
    if rest.head? = some '\n' then
      cur.reverse :: paraSplitAux (rest.dropWhile (· = '\n')) []
    else
      paraSplitAux rest ('\n' :: cur)
  | c :: rest, cur => paraSplitAux rest (c :: cur)
termination_by l _ => l.length
decreasing_by
  · have := (List.dropWhile_suffix (l := rest) (fun c => decide (c = '\n'))).length_le
    simp only [List.length_cons]; omega
  · simp only [List.length_cons]; omega
  · simp only [List.length_cons]; omega

def paraSplit (s : Str) : List Str := paraSplitAux s []

/-- One step of the paragraph-packing loop of `chunkByParagraph`; the fixed
    fallback for oversized paragraphs needs fuel, hence `Option`. -/
def paraPackStep (fuel : Nat) (maxChunkSize : Int)
    (st : Option (List Str × Str)) (paragraph : Str) : Option (List Str × Str) := do
  let (chunks, current) ← st
  let t := trimStr paragraph
  if (current.length : Int) + t.length + 2 ≤ maxChunkSize then
    pure (chunks, current ++ (if current.length > 0 then '\n' :: '\n' :: t else t))
  else
    let chunks := if current.length > 0 then chunks ++ [current] else chunks
    if (t.length : Int) > maxChunkSize then
      let sub ← chunkByFixedSizeFuel fuel t maxChunkSize 0
      pure (chunks ++ sub, [])
    else
      pure (chunks, t)

/-- `chunkByParagraph(text, maxChunkSize)`. -/
def chunkByParagraph (fuel : Nat) (text : Str) (maxChunkSize : Int) :
    Option (List Str) := do
  let paragraphs := (paraSplit text).filter (fun p => (trimStr p).length > 0)
  let (chunks, current) ← paragraphs.foldl (paraPackStep fuel maxChunkSize) (pure ([], []))
  pure (if current.length > 0 then chunks ++ [current] else chunks)

/-- The flush block of `splitRecursive`'s accumulation loop (the source
    repeats it verbatim inside the loop and after it): a non-empty
    `currentChunk` is either re-split with the next separator when it is
    over-sized, or pushed trimmed. -/
def flushCurrent (recur : Str → Option (List Str)) (chunkSize : Int)
    (acc : List Str) (current : Str) : Option (List Str) :=
  if current.length > 0 then
    if (current.length : Int) > chunkSize then
      match recur current with
      | none => none
      | some sub => some (acc ++ sub)
    else some (acc ++ [trimStr current])
  else some acc

/-- The accumulation loop inside `splitRecursive` for one separator level.
    `recur` re-splits an oversized accumulated group with the next
    separator (`splitRecursive(currentChunk, separatorIndex + 1)`). -/
def accumulateParts (sep : Str) (chunkSize : Int)
    (recur : Str → Option (List Str)) :
    List Str → List Str → Str → Option (List Str)
  | [], acc, current => flushCurrent recur chunkSize acc current
  | part :: ps, acc, current =>
    let potential := current ++ (if current.isEmpty then [] else sep) ++ part
    if (potential.length : Int) ≤ chunkSize then
      accumulateParts sep chunkSize recur ps acc potential
    else
      match flushCurrent recur chunkSize acc current with
      | none => none
      | some acc' => accumulateParts sep chunkSize recur ps acc' part

/-- The inner `splitRecursive(text, separatorIndex)` of `chunkRecursive`,
    recursing over the remaining separator list; once separators are
    exhausted it falls back to fixed-size chunking.  The fuel bounds both
    the recursion depth (the source's depth is at most the number of
    separators) and the fixed-size fallback loop. -/
def splitRecursive : Nat → Int → Int → List Str → Str → Option (List Str)
  | 0, _, _, _, _ => none
  | fuel + 1, chunkSize, overlap, seps, text =>
    if (text.length : Int) ≤ chunkSize then
      some (if (trimStr text).length > 0 then [trimStr text] else [])
    else
      match seps with
      | [] => chunkByFixedSizeFuel fuel text chunkSize overlap
      | sep :: rest =>
        accumulateParts sep chunkSize
          (fun t => splitRecursive fuel chunkSize overlap rest t)
          (jsSplit sep text) [] []

/-- The overlap-injection pass of `addOverlapToChunks`: for every chunk after
    the first, `(prevChunk.slice(-overlap) + ' ' + currentChunk).trim()`. -/
def overlapStep (overlap : Int) : Str → List Str → List Str
  | _, [] => []
  | prev, cur :: rest =>
    trimStr (jsSliceFrom prev (-overlap) ++ ' ' :: cur) :: overlapStep overlap cur rest

/-- `addOverlapToChunks(chunks, overlap)`. -/
def addOverlapToChunks (chunks : List Str) (overlap : Int) : List Str :=
  if chunks.length ≤ 1 then chunks
  else
    match chunks with
    | [] => []
    | c0 :: rest => c0 :: overlapStep overlap c0 rest

/-- `chunkRecursive(text, chunkSize, overlap, separators)`. -/
def chunkRecursive (fuel : Nat) (text : Str) (chunkSize overlap : Int)
    (separators : List Str) : Option (List Str) :=
  match splitRecursive fuel chunkSize overlap separators text with
  | none => none
  | some chunks =>
    if 0 < overlap ∧ 1 < chunks.length then
      some (addOverlapToChunks chunks overlap)
    else
      some (chunks.filter (fun c => c.length > 0))

/-- `chunkText(text, options)`: resolves defaults and dispatches on the
    strategy.  (The `default: throw` branch of the source is unreachable
    here because `ChunkingStrategy` is a closed enumeration.) -/
def chunkText (fuel : Nat) (text : Str) (options : ChunkingOptions) :
    Option (List Str) :=
  let strategy := options.strategy.getD .recursive
  let chunkSize := options.chunkSize.getD DEFAULT_CHUNK_SIZE
  let chunkOverlap := options.chunkOverlap.getD DEFAULT_CHUNK_OVERLAP
  let separators := options.separators.getD DEFAULT_SEPARATORS
  if (trimStr text).length = 0 then some []
  else
    match strategy with
    | .fixed => chunkByFixedSizeFuel fuel text chunkSize chunkOverlap
    | .sentence => some (chunkBySentence text chunkSize)
    | .paragraph => chunkByParagraph fuel text chunkSize
    | .recursive => chunkRecursive fuel text chunkSize chunkOverlap separators

/-! ## C1: forward progress of the fixed strategy -/

/-- Once `startIndex` reaches `chunkSize = overlap = 3` on the 8-character
    text, the update `startIndex += chunkSize - overlap` leaves it at `3`
    and the guard `if (startIndex <= 0)` never fires: the `while` loop of
    `chunkByFixedSize` runs forever (= returns `none` for every fuel). -/
theorem chunkByFixedSizeAux_stuck :
    ∀ (fuel : Nat) (acc : List Str),
      chunkByFixedSizeAux "abcdefgh".toList 3 3 fuel 3 acc = none
  | 0, _ => rfl
  | fuel + 1, acc => by
    show chunkByFixedSizeAux "abcdefgh".toList 3 3 fuel 3 _ = none
    exact chunkByFixedSizeAux_stuck fuel _

/-- **C1** (the code, evaluated at the failing input): `chunkByFixedSize`
    does **not** terminate on `text = "abcdefgh"`, `chunkSize = 3`,
    `chunkOverlap = 3` — for every fuel bound the loop is still running —
    even though `chunkSize > 0` and `chunkOverlap ≥ chunkSize`.  The guard
    `if (startIndex <= 0) startIndex = chunkSize` only fires when
    `startIndex` has become non-positive, which stops happening once
    `startIndex` equals `chunkSize`; the claimed forced advance of
    `chunkSize` does not exist. -/
theorem chunkByFixedSize_nonterminating :
    ∀ fuel : Nat, chunkByFixedSizeFuel fuel "abcdefgh".toList 3 3 = none
  | 0 => rfl
  | fuel + 1 => by
    show chunkByFixedSizeAux "abcdefgh".toList 3 3 fuel 3 _ = none
    exact chunkByFixedSizeAux_stuck fuel _

/-! ## C5: the overlap invariant of recursive chunking -/

/-- `leadsWith p s` holds when the string `s` begins with `p`. -/
def leadsWith : Str → Str → Bool
  | [], _ => true
  | _ :: _, [] => false
  | a :: as, b :: bs => a == b && leadsWith as bs

theorem leadsWith_append (p t : Str) : leadsWith p (p ++ t) = true := by
  induction p with
  | nil => rfl
  | cons a as ih => simp [leadsWith, ih]

/-- A string is *trimmed* when `trim` leaves it unchanged.  Every chunk the
    recursive splitter emits is pushed through `.trim()`, so pre-overlap
    chunks are trimmed. -/
def TrimmedStr (s : Str) : Prop := trimStr s = s

theorem trimRightStr_eq_rdropWhile (s : Str) :
    trimRightStr s = List.rdropWhile isWs s := rfl

theorem trimRightStr_length_le (s : Str) : (trimRightStr s).length ≤ s.length := by
  have h := (List.dropWhile_suffix (l := s.reverse) isWs).length_le
  simpa [trimRightStr] using h

theorem trimmedStr_iff (s : Str) :
    TrimmedStr s ↔ trimLeftStr s = s ∧ trimRightStr s = s := by
  constructor
  · intro h
    have h1 : (trimLeftStr s).length ≤ s.length :=
      (List.dropWhile_suffix (l := s) isWs).length_le
    have h2 : (trimRightStr (trimLeftStr s)).length ≤ (trimLeftStr s).length :=
      trimRightStr_length_le _
    have h3 : trimRightStr (trimLeftStr s) = s := h
    have hlen : (trimLeftStr s).length = s.length := by
      have := congrArg List.length h3; omega
    have hL : trimLeftStr s = s :=
      (List.dropWhile_suffix (l := s) isWs).eq_of_length hlen
    refine ⟨hL, ?_⟩
    rwa [hL] at h3
  · rintro ⟨h1, h2⟩
    unfold TrimmedStr trimStr
    rw [h1, h2]

theorem dropWhile_eq_cons_not {p : Char → Bool} :
    ∀ (l : Str) (c : Char) (cs : Str), List.dropWhile p l = c :: cs → p c = false := by
  intro l
  induction l with
  | nil => intro c cs h; simp [List.dropWhile] at h
  | cons a as ih =>
    intro c cs h
    rw [List.dropWhile_cons] at h
    by_cases hp : p a
    · simp only [hp, if_true] at h
      exact ih _ _ h
    · simp only [hp, if_false] at h
      obtain ⟨rfl, -⟩ := List.cons.inj h
      simpa using hp

theorem trimStr_trimmed (s : Str) : TrimmedStr (trimStr s) := by
  rw [trimmedStr_iff]
  constructor
  · -- the head of `trimStr s` (if any) is the head of `trimLeftStr s`, non-whitespace
    rcases h : trimStr s with _ | ⟨c, cs⟩
    · rfl
    · have hsfx : (trimStr s).reverse <:+ (trimLeftStr s).reverse := by
        unfold trimStr trimRightStr
        rw [List.reverse_reverse]
        exact List.dropWhile_suffix isWs
      have hy : ∃ t, trimLeftStr s = trimStr s ++ t := by
        rcases hsfx with ⟨t, ht⟩
        refine ⟨t.reverse, ?_⟩
        have := congrArg List.reverse ht
        simpa using this.symm
      rcases hy with ⟨t, hty⟩
      have hdw : List.dropWhile isWs s = c :: (cs ++ t) := by
        have : trimLeftStr s = c :: (cs ++ t) := by rw [hty, h]; simp
        simpa [trimLeftStr] using this
      have hc : isWs c = false := dropWhile_eq_cons_not s c _ hdw
      simp [trimLeftStr, List.dropWhile_cons, hc]
  · show trimRightStr (trimRightStr (trimLeftStr s)) = trimRightStr (trimLeftStr s)
    rw [trimRightStr_eq_rdropWhile, trimRightStr_eq_rdropWhile]
    exact List.rdropWhile_idempotent _ _

theorem TrimmedStr.getLast_not_ws {s : Str} (h : TrimmedStr s) (hne : s ≠ []) :
    isWs (s.getLast hne) = false := by
  have h2 := ((trimmedStr_iff s).mp h).2
  rw [trimRightStr_eq_rdropWhile] at h2
  have := (List.rdropWhile_eq_self_iff).mp h2 hne
  simpa using this

theorem trimRightStr_eq_self {s : Str} (hne : s ≠ []) (h : isWs (s.getLast hne) = false) :
    trimRightStr s = s := by
  rw [trimRightStr_eq_rdropWhile]
  rw [List.rdropWhile_eq_self_iff]
  intro _
  simp [h]

/-- A non-empty suffix of a list has the same last element. -/
theorem getLast_of_suffix {l s : Str} (h : s <:+ l) (hs : s ≠ []) (hl : l ≠ []) :
    l.getLast hl = s.getLast hs := by
  rcases h with ⟨t, rfl⟩
  exact List.getLast_append_of_ne_nil hs

/-- `prev.slice(-overlap)` of a non-empty trimmed string is non-empty and
    still ends in a non-whitespace character (for `overlap > 0`). -/
theorem jsSliceFrom_neg_of_trimmed {prev : Str} (hprev : TrimmedStr prev)
    (hne : prev ≠ []) {ov : Int} (hov : 0 < ov) :
    ∃ h : jsSliceFrom prev (-ov) ≠ [],
      isWs ((jsSliceFrom prev (-ov)).getLast h) = false := by
  have hlen : 0 < prev.length := List.length_pos.mpr hne
  have hstart : jsSliceFrom prev (-ov) =
      prev.drop (max ((prev.length : Int) - ov) 0).toNat := by
    unfold jsSliceFrom
    have h0 : (-ov) < 0 := by omega
    simp only [h0, if_true]
    have h1 : (prev.length : Int) + -ov = (prev.length : Int) - ov := by ring
    rw [h1]
  have hlt : (max ((prev.length : Int) - ov) 0).toNat < prev.length := by omega
  have hne' : jsSliceFrom prev (-ov) ≠ [] := by
    rw [hstart]
    intro hcon
    rw [List.drop_eq_nil_iff] at hcon
    omega
  refine ⟨hne', ?_⟩
  have hsfx : jsSliceFrom prev (-ov) <:+ prev := by
    rw [hstart]; exact List.drop_suffix _ _
  have := getLast_of_suffix hsfx hne' hne
  rw [← this]
  exact hprev.getLast_not_ws hne

/-- Core overlap fact: gluing `suf ++ " " ++ cur` and trimming yields a
    string that still starts with `suf` with its leading whitespace removed,
    provided `suf` ends in non-whitespace and `cur` is trimmed. -/
theorem leadsWith_trim_join {suf cur : Str} (hne : suf ≠ [])
    (hlast : isWs (suf.getLast hne) = false) (hcur : TrimmedStr cur) :
    leadsWith (trimLeftStr suf) (trimStr (suf ++ ' ' :: cur)) = true := by
  set s' := trimLeftStr suf with hs'
  have hs'ne : s' ≠ [] := by
    intro hcon
    have : ∀ x ∈ suf, isWs x = true := by
      have : List.dropWhile isWs suf = [] := by simpa [trimLeftStr, hs'] using hcon
      exact List.dropWhile_eq_nil_iff.mp this
    have := this _ (List.getLast_mem hne)
    rw [hlast] at this
    exact Bool.false_ne_true this
  -- last of s' = last of suf, non-whitespace
  have hs'sfx : s' <:+ suf := List.dropWhile_suffix isWs
  have hs'last : isWs (s'.getLast hs'ne) = false := by
    rw [← getLast_of_suffix hs'sfx hs'ne hne]
    exact hlast
  -- trimLeft distributes over the append since s' is non-empty
  have hL : trimLeftStr (suf ++ ' ' :: cur) = s' ++ ' ' :: cur := by
    show List.dropWhile isWs (suf ++ ' ' :: cur) = s' ++ ' ' :: cur
    rw [List.dropWhile_append]
    simp only [trimLeftStr] at hs'
    rw [← hs']
    simp [List.isEmpty_iff, hs'ne]
  unfold trimStr
  rw [hL]
  rcases hc : cur with _ | ⟨c, cs⟩
  · -- cur empty: the trailing space is stripped, leaving exactly s'
    have : trimRightStr (s' ++ [' ']) = s' := by
      rw [trimRightStr_eq_rdropWhile, List.rdropWhile_concat_pos isWs s' ' ' (by decide)]
      rw [← trimRightStr_eq_rdropWhile]
      exact trimRightStr_eq_self hs'ne hs'last
    rw [this]
    have := leadsWith_append s' []
    simpa using this
  · -- cur non-empty: it ends in non-whitespace, so nothing is stripped
    have hcne : (' ' :: c :: cs : Str) ≠ [] := by simp
    have happne : (s' ++ ' ' :: c :: cs : Str) ≠ [] := by simp
    have hlast2 : isWs ((s' ++ ' ' :: c :: cs).getLast happne) = false := by
      have h1 : (s' ++ ' ' :: c :: cs).getLast happne = (' ' :: c :: cs).getLast hcne :=
        List.getLast_append_of_ne_nil hcne
      have h2 : (' ' :: c :: cs).getLast hcne = (c :: cs).getLast (by simp) := by
        exact List.getLast_cons (by simp)
      rw [h1, h2]
      have := hcur.getLast_not_ws (s := cur) (by simp [hc])
      simpa [hc] using this
    rw [trimRightStr_eq_self happne hlast2]
    exact leadsWith_append s' (' ' :: c :: cs)

/-- Every chunk emitted by the fixed-size loop is trimmed. -/
theorem chunkByFixedSizeAux_trimmed (text : Str) (cs ov : Int) :
    ∀ (fuel : Nat) (start : Int) (acc out : List Str),
      (∀ c ∈ acc, TrimmedStr c) →
      chunkByFixedSizeAux text cs ov fuel start acc = some out →
      ∀ c ∈ out, TrimmedStr c := by
  intro fuel
  induction fuel with
  | zero =>
    intro start acc out hacc h
    simp [chunkByFixedSizeAux] at h
  | succ f ih =>
    intro start acc out hacc h
    rw [chunkByFixedSizeAux] at h
    split_ifs at h with h1
    · by_cases h2 : (trimStr (jsSubstring text start (min (start + cs) (text.length : Int)))).length > 0
      · simp only [h2, if_true] at h
        refine ih _ _ _ ?_ h
        intro c hc
        rcases List.mem_append.mp hc with hc | hc
        · exact hacc c hc
        · rcases List.mem_singleton.mp hc with rfl
          exact trimStr_trimmed _
      · simp only [h2, if_false] at h
        exact ih _ _ _ hacc h
    · cases h
      exact hacc

/-- Every chunk emitted by the flush block is trimmed, provided the
    recursive re-split only emits trimmed chunks. -/
theorem flushCurrent_trimmed (cs : Int) (recur : Str → Option (List Str))
    (hrec : ∀ s out, recur s = some out → ∀ c ∈ out, TrimmedStr c)
    (acc : List Str) (current : Str) (out : List Str)
    (hacc : ∀ c ∈ acc, TrimmedStr c)
    (h : flushCurrent recur cs acc current = some out) :
    ∀ c ∈ out, TrimmedStr c := by
  rw [flushCurrent] at h
  split_ifs at h with h1 h2
  · cases hr : recur current with
    | none => rw [hr] at h; cases h
    | some sub =>
      rw [hr] at h
      cases h
      intro c hc
      rcases List.mem_append.mp hc with hc | hc
      · exact hacc c hc
      · exact hrec _ _ hr c hc
  · cases h
    intro c hc
    rcases List.mem_append.mp hc with hc | hc
    · exact hacc c hc
    · rcases List.mem_singleton.mp hc with rfl
      exact trimStr_trimmed _
  · cases h
    exact hacc

/-- Every chunk emitted by the per-separator accumulation loop is trimmed,
    provided the recursive re-split only emits trimmed chunks. -/
theorem accumulateParts_trimmed (sep : Str) (cs : Int)
    (recur : Str → Option (List Str))
    (hrec : ∀ s out, recur s = some out → ∀ c ∈ out, TrimmedStr c) :
    ∀ (ps acc : List Str) (current : Str) (out : List Str),
      (∀ c ∈ acc, TrimmedStr c) →
      accumulateParts sep cs recur ps acc current = some out →
      ∀ c ∈ out, TrimmedStr c := by
  intro ps
  induction ps with
  | nil =>
    intro acc current out hacc h
    rw [accumulateParts] at h
    exact flushCurrent_trimmed cs recur hrec acc current out hacc h
  | cons part ps ih =>
    intro acc current out hacc h
    rw [accumulateParts] at h
    by_cases hle : (((current ++ (if current.isEmpty then [] else sep) ++ part :
        Str).length : Int) ≤ cs)
    · rw [if_pos hle] at h
      exact ih _ _ _ hacc h
    · rw [if_neg hle] at h
      cases hf : flushCurrent recur cs acc current with
      | none => rw [hf] at h; cases h
      | some acc' =>
        rw [hf] at h
        exact ih _ _ _ (flushCurrent_trimmed cs recur hrec acc current acc' hacc hf) h

/-- Every chunk emitted by `splitRecursive` is trimmed. -/
theorem splitRecursive_trimmed :
    ∀ (fuel : Nat) (cs ov : Int) (seps : List Str) (text : Str) (out : List Str),
      splitRecursive fuel cs ov seps text = some out → ∀ c ∈ out, TrimmedStr c := by
  intro fuel
  induction fuel with
  | zero =>
    intro cs ov seps text out h
    simp [splitRecursive] at h
  | succ f ih =>
    intro cs ov seps text out h
    rw [splitRecursive.eq_def] at h
    simp only at h
    split_ifs at h with h1 h2
    · cases h
      intro c hc
      rcases List.mem_singleton.mp hc with rfl
      exact trimStr_trimmed _
    · cases h
      intro c hc
      cases hc
    · cases seps with
      | nil =>
        exact chunkByFixedSizeAux_trimmed text cs ov f 0 [] out (by simp) h
      | cons sep rest =>
        exact accumulateParts_trimmed sep cs _
          (fun s o ho => ih cs ov rest s o ho) _ [] [] out (by simp) h

theorem overlapStep_length (ov : Int) :
    ∀ (rest : List Str) (prev : Str), (overlapStep ov prev rest).length = rest.length := by
  intro rest
  induction rest with
  | nil => intro prev; rfl
  | cons cur rest ih => intro prev; simp [overlapStep, ih]

/-- Position `j` of the overlap pass starts with the left-trimmed
    `overlap`-suffix of the `j`-th pre-overlap chunk (its predecessor). -/
theorem overlapStep_leadsWith (ov : Int) (hov : 0 < ov) :
    ∀ (rest : List Str) (prev : Str), TrimmedStr prev → (∀ c ∈ rest, TrimmedStr c) →
      ∀ j, j < rest.length →
        leadsWith (trimLeftStr (jsSliceFrom ((prev :: rest).getD j []) (-ov)))
          ((overlapStep ov prev rest).getD j []) = true := by
  intro rest
  induction rest with
  | nil => intro _ _ _ j hj; simp at hj
  | cons cur rest ih =>
    intro prev hprev hall j hj
    cases j with
    | zero =>
      simp only [overlapStep, List.getD_cons_zero]
      by_cases hp : prev = []
      · subst hp
        simp [jsSliceFrom, trimLeftStr, leadsWith]
      · obtain ⟨hne, hlast⟩ := jsSliceFrom_neg_of_trimmed hprev hp hov
        exact leadsWith_trim_join hne hlast (hall cur (by simp))
    | succ j =>
      simp only [overlapStep, List.getD_cons_succ]
      exact ih cur (hall cur (by simp)) (fun c hc => hall c (by simp [hc])) j
        (by simpa using hj)

/-- **C5 counterexample**: `chunkText("aa b\n\ncc", {recursive, chunkSize: 6,
    chunkOverlap: 2})` splits (pre-overlap) into `["aa b", "cc"]`; the
    2-character suffix of `"aa b"` is `" b"`, but the second emitted chunk is
    `"b cc"` — the final `.trim()` of the overlap pass strips the suffix's
    leading space, so the chunk does *not* start with the 2-character suffix
    of its predecessor. -/
theorem recursiveOverlap_counterexample :
    chunkText 20 "aa b\n\ncc".toList
        ⟨some .recursive, some 6, some 2, none⟩ =
      some ["aa b".toList, "b cc".toList] ∧
    splitRecursive 20 6 2 DEFAULT_SEPARATORS "aa b\n\ncc".toList =
      some ["aa b".toList, "cc".toList] ∧
    jsSliceFrom "aa b".toList (-2) = " b".toList ∧
    leadsWith " b".toList "b cc".toList = false := by
  refine ⟨by decide, by decide, by decide, by decide⟩

/-- **C5 (amended)**: for recursive chunking with `chunkOverlap = o > 0`
    whose pre-overlap split produced more than one chunk, the overlap is
    injected in a second pass, and every chunk after the first starts with
    the **left-trimmed** `o`-character suffix of its predecessor's
    pre-overlap text (the whole predecessor when it is shorter than `o`);
    the suffix is glued with a single space and the result trimmed, so a
    suffix beginning in whitespace loses exactly that leading whitespace. -/
theorem recursiveOverlap_amended (fuel : Nat) (cs ov : Int) (seps : List Str)
    (text : Str) (pre : List Str) (hov : 0 < ov)
    (hsplit : splitRecursive fuel cs ov seps text = some pre)
    (hlen : 1 < pre.length) :
    chunkRecursive fuel text cs ov seps = some (addOverlapToChunks pre ov) ∧
    (addOverlapToChunks pre ov).length = pre.length ∧
    (addOverlapToChunks pre ov).getD 0 [] = pre.getD 0 [] ∧
    ∀ i, 1 ≤ i → i < pre.length →
      leadsWith (trimLeftStr (jsSliceFrom (pre.getD (i - 1) []) (-ov)))
        ((addOverlapToChunks pre ov).getD i []) = true := by
  have htr := splitRecursive_trimmed fuel cs ov seps text pre hsplit
  have hcond : 0 < ov ∧ 1 < pre.length := ⟨hov, hlen⟩
  have hbranch : chunkRecursive fuel text cs ov seps =
      some (addOverlapToChunks pre ov) := by
    unfold chunkRecursive
    rw [hsplit]
    simp [hcond]
  rcases pre with _ | ⟨c0, rest⟩
  · simp at hlen
  have hA : addOverlapToChunks (c0 :: rest) ov = c0 :: overlapStep ov c0 rest := by
    unfold addOverlapToChunks
    rw [if_neg (by simp only [List.length_cons] at hlen ⊢; omega)]
  refine ⟨hbranch, ?_, ?_, ?_⟩
  · rw [hA]
    simp [overlapStep_length]
  · rw [hA]
    simp
  · intro i h1 h2
    rw [hA]
    obtain ⟨j, rfl⟩ : ∃ j, i = j + 1 := ⟨i - 1, by omega⟩
    simp only [List.getD_cons_succ, Nat.add_sub_cancel]
    exact overlapStep_leadsWith ov hov rest c0
      (htr c0 (by simp)) (fun c hc => htr c (by simp [hc])) j
      (by simp only [List.length_cons] at h2; omega)

theorem recursiveOverlap_amended_witness :
    leadsWith (trimLeftStr (jsSliceFrom ("aa b".toList) (-2)))
      ((addOverlapToChunks ["aa b".toList, "cc".toList] 2).getD 1 []) = true :=
  (recursiveOverlap_amended 20 6 2 DEFAULT_SEPARATORS "aa b\n\ncc".toList
      ["aa b".toList, "cc".toList] (by decide) (by decide) (by decide)).2.2.2 1
    (by decide) (by decide)

/-! ## DocumentHasher (`document-hash.ts`) -/

/-- The byte sequence fed to SHA-256 by `generateDocumentHash`: the source
    guards the filename block with `if (filename)`, so only a *truthy*
    (present and non-empty) filename runs `hash.update(filename);
    hash.update('::')` before `hash.update(content)` — i.e. the digest is
    taken over `filename ++ "::" ++ content` — while a missing *or empty*
    filename leaves the digest over `content` alone. -/
def hashInput (content : Str) (filename : Option Str) : Str :=
  match filename with
  | some f => if f.isEmpty then content else f ++ ':' :: ':' :: content
  | none => content

/-- `generateDocumentHash(content, filename)`.  SHA-256 itself is Node's
    `crypto` — an external capability — so the digest function `sha` is a
    parameter of the embedding. -/
def generateDocumentHash (sha : Str → String) (content : Str)
    (filename : Option Str) : String :=
  sha (hashInput content filename)

/-- **C6 counterexample**: distinct `(content, filename)` pairs can feed the
    *identical* byte sequence to SHA-256 — `hash("b", filename="a")` and
    `hash("a::b", no filename)` both hash the bytes `"a::b"`, as do
    `hash("a::b", filename="")` (an empty filename is falsy, so the
    `filename + '::'` block is skipped) — and `hash("b", filename="a::")`
    and `hash("::b", filename="a")` both hash `"a::::b"` — so their digests
    coincide for every digest function, and the separator does not prevent
    differently split pairs from producing the same hashed byte sequence. -/
theorem generateDocumentHash_counterexample :
    hashInput "b".toList (some "a".toList) = hashInput "a::b".toList none ∧
    ("b".toList, some "a".toList) ≠ ("a::b".toList, (none : Option Str)) ∧
    hashInput "a::b".toList (some "".toList) = hashInput "b".toList (some "a".toList) ∧
    ("a::b".toList, some "".toList) ≠ ("b".toList, some "a".toList) ∧
    hashInput "b".toList (some "a::".toList) = hashInput "::b".toList (some "a".toList) ∧
    ("b".toList, some "a::".toList) ≠ ("::b".toList, some "a".toList) := by
  refine ⟨by decide, by decide, by decide, by decide, by decide, by decide⟩

/-- Splitting `f ++ "::" ++ c` at the separator is unambiguous when the
    filename contains no colon at all. -/
theorem hashInput_split_inj :
    ∀ (f₁ f₂ c₁ c₂ : Str), ':' ∉ f₁ → ':' ∉ f₂ →
      f₁ ++ ':' :: ':' :: c₁ = f₂ ++ ':' :: ':' :: c₂ → f₁ = f₂ ∧ c₁ = c₂ := by
  intro f₁
  induction f₁ with
  | nil =>
    intro f₂ c₁ c₂ h1 h2 h
    cases f₂ with
    | nil =>
      simp only [List.nil_append, List.cons.injEq, true_and] at h
      exact ⟨rfl, h⟩
    | cons b bs =>
      simp only [List.nil_append, List.cons_append, List.cons.injEq] at h
      exact absurd (h.1 ▸ List.mem_cons_self b bs) h2
  | cons a as ih =>
    intro f₂ c₁ c₂ h1 h2 h
    cases f₂ with
    | nil =>
      simp only [List.nil_append, List.cons_append, List.cons.injEq] at h
      exact absurd (h.1 ▸ List.mem_cons_self a as) h1
    | cons b bs =>
      simp only [List.cons_append, List.cons.injEq] at h
      obtain ⟨rfl, h⟩ := h
      obtain ⟨rfl, rfl⟩ := ih bs c₁ c₂ (fun hm => h1 (List.mem_cons_of_mem _ hm))
        (fun hm => h2 (List.mem_cons_of_mem _ hm)) h
      exact ⟨rfl, rfl⟩

/-- **C6 (amended)**: `generateDocumentHash` is deterministic — identical
    bytes plus identical filename always yield the identical digest — and
    for pairs that both carry a *truthy* (non-empty) and *colon-free*
    filename, distinct `(filename, content)` pairs always produce distinct
    hashed byte sequences (hence distinct digests whenever SHA-256 does not
    collide on them).  Without those restrictions the separator can be
    forged: an empty filename is falsy and adds nothing, and a filename
    containing colons can shift the split — see the counterexample. -/
theorem generateDocumentHash_amended (sha : Str → String) :
    (∀ (c c' : Str) (f f' : Option Str), c = c' → f = f' →
        generateDocumentHash sha c f = generateDocumentHash sha c' f') ∧
    (∀ (c₁ c₂ f₁ f₂ : Str), f₁ ≠ [] → f₂ ≠ [] → ':' ∉ f₁ → ':' ∉ f₂ →
        hashInput c₁ (some f₁) = hashInput c₂ (some f₂) → c₁ = c₂ ∧ f₁ = f₂) := by
  constructor
  · intro c c' f f' hc hf
    rw [hc, hf]
  · intro c₁ c₂ f₁ f₂ hne₁ hne₂ h1 h2 h
    have e₁ : f₁.isEmpty = false := by
      cases f₁
      · exact absurd rfl hne₁
      · rfl
    have e₂ : f₂.isEmpty = false := by
      cases f₂
      · exact absurd rfl hne₂
      · rfl
    have := hashInput_split_inj f₁ f₂ c₁ c₂ h1 h2
      (by simpa [hashInput, e₁, e₂] using h)
    exact ⟨this.2, this.1⟩

theorem generateDocumentHash_amended_witness :
    generateDocumentHash String.mk "x".toList (some "y".toList) =
        generateDocumentHash String.mk "x".toList (some "y".toList) ∧
    ("b".toList = "b".toList ∧ "a".toList = "a".toList) :=
  ⟨(generateDocumentHash_amended String.mk).1 "x".toList "x".toList
      (some "y".toList) (some "y".toList) rfl rfl,
    (generateDocumentHash_amended String.mk).2 "b".toList "b".toList
      "a".toList "a".toList (by decide) (by decide) (by decide) (by decide) rfl⟩

/-! ## RetrievalQueryEngine (`EmbeddingController.queryDocuments`) -/

/-- `EmbeddingSearchMethod` from `embedding.types.ts`. -/
inductive EmbeddingSearchMethod
  | similarity | cosine | l2 | ip | filtered_similarity | hybrid
deriving DecidableEq, Repr

/-- `SearchStrictness` from `embedding.types.ts`. -/
inductive SearchStrictness
  | all_results | relaxed | balanced | strict
deriving DecidableEq, Repr

/-- `SearchStrictnessInfo` (only the behaviourally relevant `minScore`
    threshold; the display `name`/`description` strings are presentation
    data).  Scores are JavaScript numbers compared with `<`; they are
    modelled as rationals. -/
structure SearchStrictnessInfo where
  minScore : ℚ
deriving DecidableEq, Repr

/-- `SEARCH_STRICTNESS_LEVELS`: all_results 0, relaxed 0.5, balanced 0.7,
    strict 0.85 (written as explicit fractions so that comparisons are
    kernel-computable; `resolveMinScoreSpec_eq` below identifies them with
    the decimal literals). -/
def SEARCH_STRICTNESS_LEVELS : SearchStrictness → SearchStrictnessInfo
  | .all_results => ⟨0⟩
  | .relaxed => ⟨mkRat 5 10⟩
  | .balanced => ⟨mkRat 7 10⟩
  | .strict => ⟨mkRat 85 100⟩

/-- A metadata map (opaque key/value pairs, as stored in Chroma). -/
abbrev MetadataMap := List (String × String)

/-- `MonitoringAiEmbeddingQueryOptions` — the retriever options consulted by
    `queryDocuments`. -/
structure QueryOptions where
  maxResults : Option Nat := none
  searchMethod : Option EmbeddingSearchMethod := none
  metadataFilter : Option MetadataMap := none
  strictness : Option SearchStrictness := none
  minScore : Option ℚ := none
deriving DecidableEq, Repr

/-- A LangChain `Document` as returned by `similaritySearchWithScore`. -/
structure ScoredDoc where
  pageContent : Str
  metadata : MetadataMap
deriving DecidableEq, Repr

/-- `EmbeddingQueryResult`. -/
structure EmbeddingQueryResult where
  content : Str
  metadata : MetadataMap
  score : ℚ
deriving DecidableEq, Repr

/-- The minimum-score resolution of `queryDocuments`: a custom `minScore`
    takes precedence (`options?.minScore !== undefined`), else a given
    `strictness` selects the predefined level, else no threshold. -/
def resolveMinScore (options : Option QueryOptions) : Option ℚ :=
  match options.bind (·.minScore) with
  | some m => some m
  | none =>
    match options.bind (·.strictness) with
    | some s => some (SEARCH_STRICTNESS_LEVELS s).minScore
    | none => none

/-- `options?.maxResults || 4` — note `||`, so an explicit `0` also falls
    back to the default `4`. -/
def resolveK (options : Option QueryOptions) : Nat :=
  match options.bind (·.maxResults) with
  | some m => if m = 0 then 4 else m
  | none => 4

/-- The result loop of `queryDocuments`: results below the resolved
    threshold are skipped (`continue`), the rest are pushed in order. -/
def filterByScore (threshold : Option ℚ) (results : List (ScoredDoc × ℚ)) :
    List EmbeddingQueryResult :=
  results.foldl
    (fun docs r =>
      if (match threshold with | some t => decide (r.2 < t) | none => false) = true
      then docs
      else docs ++ [⟨r.1.pageContent, r.1.metadata, r.2⟩])
    []

/-- `queryDocuments(query)` with the controller's `retrieverOptions`.  The
    vector store's `similaritySearchWithScore(query, k, filter)` is the
    external similarity primitive `search`.  Every declared search method
    routes through it; `filtered_similarity` first demands a
    `metadataFilter`. -/
def queryDocuments (search : Str → Nat → Option MetadataMap → List (ScoredDoc × ℚ))
    (retrieverOptions : Option QueryOptions) (query : Str) :
    Except String (List EmbeddingQueryResult) :=
  if query.isEmpty ∨ (trimStr query).length = 0 then
    .error "Query cannot be empty"
  else
    match (retrieverOptions.bind (·.searchMethod)).getD .similarity with
    | .filtered_similarity =>
      match retrieverOptions.bind (·.metadataFilter) with
      | none => .error "filtered_similarity requires metadataFilter to be specified"
      | some f =>
        .ok (filterByScore (resolveMinScore retrieverOptions)
          (search query (resolveK retrieverOptions) (some f)))
    | _ =>
      .ok (filterByScore (resolveMinScore retrieverOptions)
        (search query (resolveK retrieverOptions)
          (retrieverOptions.bind (·.metadataFilter))))

/-- Threshold resolution exactly as the specification words it: explicit
    `minScore` wins over `strictness`'s table lookup (all_results = 0,
    relaxed = 0.5, balanced = 0.7, strict = 0.85); if neither is given, no
    threshold is applied. -/
def resolveMinScoreSpec (options : Option QueryOptions) : Option ℚ :=
  match options.bind (·.minScore), options.bind (·.strictness) with
  | some m, _ => some m
  | none, some .all_results => some 0
  | none, some .relaxed => some 0.5
  | none, some .balanced => some 0.7
  | none, some .strict => some 0.85
  | none, none => none

/-- The post-hoc result loop keeps exactly the results whose score is not
    below the threshold, in order. -/
theorem filterByScore_eq_filter (threshold : Option ℚ)
    (results : List (ScoredDoc × ℚ)) :
    filterByScore threshold results =
      (results.filter (fun r => match threshold with
        | some t => decide (t ≤ r.2)
        | none => true)).map (fun r => ⟨r.1.pageContent, r.1.metadata, r.2⟩) := by
  suffices h : ∀ (rs : List (ScoredDoc × ℚ)) (acc : List EmbeddingQueryResult),
      rs.foldl
        (fun docs r =>
          if (match threshold with | some t => decide (r.2 < t) | none => false) = true
          then docs
          else docs ++ [⟨r.1.pageContent, r.1.metadata, r.2⟩]) acc =
        acc ++ (rs.filter (fun r => match threshold with
          | some t => decide (t ≤ r.2)
          | none => true)).map (fun r => ⟨r.1.pageContent, r.1.metadata, r.2⟩) by
    simpa [filterByScore] using h results []
  intro rs
  induction rs with
  | nil => intro acc; simp
  | cons r rs ih =>
    intro acc
    cases threshold with
    | none =>
      simp only [List.foldl_cons]
      rw [ih]
      simp [List.filter_cons]
    | some t =>
      simp only [List.foldl_cons]
      rw [ih]
      by_cases hk : r.2 < t
      · simp [List.filter_cons, hk, not_le.mpr hk]
      · simp [List.filter_cons, hk, le_of_not_lt hk]

/-- **C4**: (1) the minimum-score threshold is resolved exactly as the
    specification says — an explicit `minScore` wins over the strictness
    table lookup (all_results = 0, relaxed = 0.5, balanced = 0.7,
    strict = 0.85), and with neither no threshold is applied; (2) for a
    non-empty query with a valid search method, the returned list is exactly
    the similarity results whose score is not below the resolved threshold,
    dropped post-hoc with order preserved; (3) concretely, results scored
    [0.9, 0.6, 0.3] under strictness = balanced yield only the 0.9 result. -/
theorem queryDocuments_threshold_resolution :
    (∀ options, resolveMinScore options = resolveMinScoreSpec options) ∧
    (∀ (search : Str → Nat → Option MetadataMap → List (ScoredDoc × ℚ))
        (options : Option QueryOptions) (query : Str),
        ¬ (query.isEmpty ∨ (trimStr query).length = 0) →
        ((options.bind (·.searchMethod)).getD .similarity = .filtered_similarity →
          (options.bind (·.metadataFilter)).isSome) →
        queryDocuments search options query =
          .ok (((search query (resolveK options)
                (options.bind (·.metadataFilter))).filter
              (fun r => match resolveMinScore options with
                | some t => decide (t ≤ r.2)
                | none => true)).map
            (fun r => ⟨r.1.pageContent, r.1.metadata, r.2⟩))) ∧
    (queryDocuments
        (fun _ _ _ => [(⟨"d1".toList, []⟩, mkRat 9 10), (⟨"d2".toList, []⟩, mkRat 6 10),
          (⟨"d3".toList, []⟩, mkRat 3 10)])
        (some { strictness := some .balanced }) "q".toList =
      .ok [⟨"d1".toList, [], mkRat 9 10⟩]) := by
  refine ⟨?_, ?_, ?_⟩
  · intro options
    unfold resolveMinScore resolveMinScoreSpec
    rcases h1 : options.bind (·.minScore) with _ | m
    · rcases h2 : options.bind (·.strictness) with _ | s
      · rfl
      · cases s <;> simp [SEARCH_STRICTNESS_LEVELS] <;> norm_num [mkRat, Rat.normalize]
    · rfl
  · intro search options query hq hf
    unfold queryDocuments
    rw [if_neg hq]
    cases hm : (options.bind (·.searchMethod)).getD .similarity
    case filtered_similarity =>
      obtain ⟨f, hfe⟩ := Option.isSome_iff_exists.mp (hf hm)
      rw [hfe]
      exact congrArg Except.ok (filterByScore_eq_filter _ _)
    all_goals exact congrArg Except.ok (filterByScore_eq_filter _ _)
  · rfl

theorem queryDocuments_threshold_resolution_witness :
    queryDocuments (fun _ _ _ => [(⟨"d".toList, []⟩, mkRat 8 10)]) none "q".toList =
      .ok ((([(⟨"d".toList, []⟩, mkRat 8 10)] : List (ScoredDoc × ℚ)).filter
          (fun r => match resolveMinScore none with
            | some t => decide (t ≤ r.2)
            | none => true)).map
        (fun r => ⟨r.1.pageContent, r.1.metadata, r.2⟩)) :=
  queryDocuments_threshold_resolution.2.1
    (fun _ _ _ => [(⟨"d".toList, []⟩, mkRat 8 10)]) none "q".toList
    (by decide) (by decide)

/-! ## IngestionPipeline (`EmbeddingController.addDocumentsFromFiles`) -/

/-- `DuplicateHandling` from `embedding.types.ts`. -/
inductive DuplicateHandling
  | skip | replace | error | allow
deriving DecidableEq, Repr

/-- `MonitoringAiDocumentType`. -/
inductive DocumentType
  | pdf | docx | xlsx | csv | txt | md | json | html
deriving DecidableEq, Repr, Inhabited

/-- `DocumentFileInput` — the already-local buffer case; resolving a URL or
    file path to bytes is external byte-source I/O (spec §4.3 step 1).
    `idStem` is the source's `idPrefix` field. -/
structure DocumentFileInput where
  source : Str
  type : DocumentType
  metadata : MetadataMap := []
  idStem : Option String := none
  filename : Option Str := none
deriving DecidableEq, Repr, Inhabited

/-- The metadata written on every produced chunk (caller metadata spread
    first, then the pipeline's own tags). -/
structure ChunkMeta where
  extra : MetadataMap
  fileIndex : Nat
  chunkIndex : Nat
  totalChunks : Nat
  documentType : DocumentType
  documentHash : String
  filename : Option Str
deriving DecidableEq, Repr

/-- A vector-store record: id, text and metadata. -/
structure StoredDoc where
  id : String
  content : Str
  meta : ChunkMeta
deriving DecidableEq, Repr

/-- The vector store's contents (external capability; upsert appends,
    delete removes by id). -/
structure VectorStore where
  docs : List StoredDoc
deriving DecidableEq, Repr

/-- `findDocumentsByHash`: the `collection.get({where: {documentHash}})`
    metadata query, followed by the source's `if (id && content)` check —
    returned records with a falsy (empty) id or content are dropped from
    the result array. -/
def findDocumentsByHash (store : VectorStore) (h : String) : List StoredDoc :=
  (store.docs.filter (fun d => d.meta.documentHash == h)).filter
    (fun d => !d.id.isEmpty && !d.content.isEmpty)

/-- `deleteDocuments(ids)`. -/
def deleteDocumentsStore (store : VectorStore) (ids : List String) : VectorStore :=
  ⟨store.docs.filter (fun d => !(ids.contains d.id))⟩

/-- External capabilities used by the pipeline: SHA-256, the per-type
    document decoder (`parseDocument`), and the run timestamp
    (`Date.now()`). -/
structure IngestEnv where
  sha : Str → String
  decode : DocumentType → Str → Str
  timestamp : Nat

/-- `generateDocumentHash(contentBuffer, file.filename)`. -/
def docHashOf (env : IngestEnv) (f : DocumentFileInput) : String :=
  env.sha (hashInput f.source f.filename)

/-- `AddDocumentsFromFilesOptions`. -/
structure AddDocumentsFromFilesOptions where
  chunkingOptions : Option ChunkingOptions := none
  duplicateHandling : Option DuplicateHandling := none
deriving DecidableEq, Repr

/-- `duplicateHandling = DuplicateHandling.skip` default. -/
def dhOf (options : Option AddDocumentsFromFilesOptions) : DuplicateHandling :=
  (options.bind (·.duplicateHandling)).getD .skip

/-- `chunkingOptions` (undefined becomes `chunkText`'s default `{}`). -/
def coptsOf (options : Option AddDocumentsFromFilesOptions) : ChunkingOptions :=
  (options.bind (·.chunkingOptions)).getD {}

/-- `file.filename || file_<fileIndex>` (an empty filename is falsy). -/
def fileLabel (f : DocumentFileInput) (fileIndex : Nat) : String :=
  match f.filename with
  | some fn => if fn.isEmpty then "file_" ++ toString fileIndex else String.mk fn
  | none => "file_" ++ toString fileIndex

/-- `file.idPrefix || file.filename || file_<fileIndex>`. -/
def idStemOf (f : DocumentFileInput) (fileIndex : Nat) : String :=
  match f.idStem with
  | some p => if p.isEmpty then fileLabel f fileIndex else p
  | none => fileLabel f fileIndex

/-- `...(file.filename && { filename: file.filename })`: the filename tag is
    only added when the filename is truthy. -/
def metaFilename (f : DocumentFileInput) : Option Str :=
  match f.filename with
  | some fn => if fn.isEmpty then none else some fn
  | none => none

/-- Mutable state of the per-file loop: the batch of chunk records to
    upsert, the `skipped`/`replaced` counters and the ids queued for
    deferred deletion. -/
structure IngestState where
  allDocs : List StoredDoc
  skipped : Nat
  replaced : Nat
  toReplace : List String
deriving DecidableEq, Repr

/-- The `{added, skipped, replaced}` result. -/
structure IngestResult where
  added : Nat
  skipped : Nat
  replaced : Nat
deriving DecidableEq, Repr

/-- The `DuplicateHandling.error` message. -/
def dupErrorMsg (f : DocumentFileInput) (fileIndex : Nat) (h : String) : String :=
  "Duplicate document found: " ++ fileLabel f fileIndex ++ ". Hash: " ++ h

/-- One iteration of the file loop: hash, duplicate policy, decode, skip on
    empty text, chunk, tag metadata, queue the chunk records.  `Sum.inl`
    models `continue`. -/
def ingestFile (fuel : Nat) (env : IngestEnv) (store : VectorStore)
    (dh : DuplicateHandling) (copts : ChunkingOptions)
    (fileIndex : Nat) (f : DocumentFileInput) (st : IngestState) :
    Option (Except String IngestState) :=
  let h := docHashOf env f
  let existing := findDocumentsByHash store h
  match (if dh ≠ .allow ∧ existing ≠ [] then
           match dh with
           | .skip => Except.ok (Sum.inl {st with skipped := st.skipped + 1})
           | .error => Except.error (dupErrorMsg f fileIndex h)
           | .replace => Except.ok (Sum.inr {st with
               toReplace := st.toReplace ++ existing.map (·.id),
               replaced := st.replaced + 1})
           | .allow => Except.ok (Sum.inr st)
         else Except.ok (Sum.inr st)) with
  | .error e => some (.error e)
  | .ok (.inl st') => some (.ok st')
  | .ok (.inr st') =>
    let text := env.decode f.type f.source
    if (trimStr text).length = 0 then
      some (.ok {st' with skipped := st'.skipped + 1})
    else
      match chunkText fuel text copts with
      | none => none
      | some chunks =>
        let newDocs := chunks.enum.map (fun ci =>
          { id := idStemOf f fileIndex ++ "_" ++ toString env.timestamp ++
              "_chunk_" ++ toString ci.1,
            content := ci.2,
            meta := { extra := f.metadata, fileIndex := fileIndex,
                      chunkIndex := ci.1, totalChunks := chunks.length,
                      documentType := f.type, documentHash := h,
                      filename := metaFilename f } : StoredDoc })
        some (.ok {st' with allDocs := st'.allDocs ++ newDocs})

/-- The `for (fileIndex...)` loop over all files. -/
def ingestLoop (fuel : Nat) (env : IngestEnv) (store : VectorStore)
    (dh : DuplicateHandling) (copts : ChunkingOptions) :
    Nat → List DocumentFileInput → IngestState → Option (Except String IngestState)
  | _, [], st => some (.ok st)
  | i, f :: fs, st =>
    match ingestFile fuel env store dh copts i f st with
    | none => none
    | some (.error e) => some (.error e)
    | some (.ok st') => ingestLoop fuel env store dh copts (i + 1) fs st'

/-- `addDocumentsFromFiles(files, options)`: the per-file loop, then the
    deferred deletions, then one batch upsert (skipped entirely when no
    chunks were produced).  The returned store is the store after the call;
    on a thrown error nothing was written, so it is the unchanged input
    store (wrapped in the outer catch's message). -/
def addDocumentsFromFiles (fuel : Nat) (env : IngestEnv) (store : VectorStore)
    (files : List DocumentFileInput)
    (options : Option AddDocumentsFromFilesOptions) :
    Option (Except String IngestResult × VectorStore) :=
  if files.isEmpty then some (.error "No files provided", store)
  else
    match ingestLoop fuel env store (dhOf options) (coptsOf options) 0 files
        ⟨[], 0, 0, []⟩ with
    | none => none
    | some (.error e) =>
      some (.error ("Failed to add documents from files: " ++ e), store)
    | some (.ok st) =>
      let store1 := if st.toReplace.isEmpty then store
                    else deleteDocumentsStore store st.toReplace
      if st.allDocs.isEmpty then
        some (.ok ⟨0, st.skipped, st.replaced⟩, store1)
      else
        some (.ok ⟨st.allDocs.length, st.skipped, st.replaced⟩,
          ⟨store1.docs ++ st.allDocs⟩)

/-- A file whose hash has no match in the store can only run out of fuel or
    continue the loop normally — it can never throw. -/
theorem ingestFile_no_dup (fuel : Nat) (env : IngestEnv) (store : VectorStore)
    (dh : DuplicateHandling) (copts : ChunkingOptions)
    (i : Nat) (f : DocumentFileInput) (st : IngestState)
    (hnd : findDocumentsByHash store (docHashOf env f) = []) :
    ingestFile fuel env store dh copts i f st = none ∨
    ∃ st', ingestFile fuel env store dh copts i f st = some (.ok st') := by
  simp only [ingestFile]
  split
  · -- the duplicate branch cannot throw when there is no hash match
    rename_i e heq
    rw [if_neg (by simp [hnd])] at heq
    cases heq
  · right; exact ⟨_, rfl⟩
  · split
    · right; exact ⟨_, rfl⟩
    · split
      · left; rfl
      · right; exact ⟨_, rfl⟩

/-- With `duplicateHandling = error`, the first hash-matching file makes the
    whole loop throw the duplicate error (or the loop runs out of chunking
    fuel on an earlier file). -/
theorem ingestLoop_error_on_dup (fuel : Nat) (env : IngestEnv)
    (store : VectorStore) (copts : ChunkingOptions) :
    ∀ (files : List DocumentFileInput) (idx i : Nat) (st : IngestState),
      idx < files.length →
      (∀ j, j < idx →
        findDocumentsByHash store (docHashOf env (files.getD j default)) = []) →
      findDocumentsByHash store (docHashOf env (files.getD idx default)) ≠ [] →
      ingestLoop fuel env store .error copts i files st = none ∨
      ingestLoop fuel env store .error copts i files st =
        some (.error (dupErrorMsg (files.getD idx default) (i + idx)
          (docHashOf env (files.getD idx default)))) := by
  intro files
  induction files with
  | nil => intro idx i st h; simp at h
  | cons f fs ih =>
    intro idx i st hlt hpre hmatch
    cases idx with
    | zero =>
      right
      have hex : findDocumentsByHash store (docHashOf env f) ≠ [] := by
        simpa using hmatch
      have hstep : ingestFile fuel env store .error copts i f st =
          some (.error (dupErrorMsg f i (docHashOf env f))) := by
        simp only [ingestFile]
        rw [if_pos ⟨by simp, hex⟩]
      rw [ingestLoop, hstep]
      simp
    | succ idx =>
      have hno : findDocumentsByHash store (docHashOf env f) = [] := by
        have := hpre 0 (Nat.succ_pos idx)
        simpa using this
      rw [ingestLoop]
      rcases ingestFile_no_dup fuel env store .error copts i f st hno with hstep | ⟨st', hstep⟩
      · rw [hstep]
        left; rfl
      · rw [hstep]
        have hrec := ih idx (i + 1) st' (by simpa using hlt)
          (fun j hj => by simpa using hpre (j + 1) (by omega))
          (by simpa using hmatch)
        rcases hrec with hrec | hrec
        · left; exact hrec
        · right
          show ingestLoop fuel env store .error copts (i + 1) fs st' =
            some (.error (dupErrorMsg ((f :: fs).getD (idx + 1) default)
              (i + (idx + 1)) (docHashOf env ((f :: fs).getD (idx + 1) default))))
          rw [hrec]
          have h1 : i + 1 + idx = i + (idx + 1) := by omega
          simp [h1]

/-- **C7 (amended)**: with `duplicateHandling = error`, when the duplicate
    query for an input file's document hash returns a stored chunk — i.e.
    a chunk carrying the hash *with a non-empty id and non-empty content*,
    the only kind `findDocumentsByHash` reports — and no earlier file's
    query matched, the entire call — all files — fails with an error
    identifying the offending file and hash, and the vector store is left
    unchanged by the call: no chunks are upserted and none are deleted for
    any file, because both the batch upsert and the deferred deletions
    happen only after all files are processed, and the throw precedes them.
    A stored chunk whose content is empty is invisible to the duplicate
    query, so a hash match on it raises no error: see the counterexample. -/
theorem addDocumentsFromFiles_error_aborts_all (fuel : Nat) (env : IngestEnv)
    (store : VectorStore) (files : List DocumentFileInput)
    (options : Option AddDocumentsFromFilesOptions) (idx : Nat)
    (hdh : dhOf options = .error)
    (hidx : idx < files.length)
    (hpre : ∀ j, j < idx →
      findDocumentsByHash store (docHashOf env (files.getD j default)) = [])
    (hmatch : findDocumentsByHash store
      (docHashOf env (files.getD idx default)) ≠ [])
    (r : Except String IngestResult) (store' : VectorStore)
    (hrun : addDocumentsFromFiles fuel env store files options = some (r, store')) :
    store' = store ∧
    r = .error ("Failed to add documents from files: " ++
      dupErrorMsg (files.getD idx default) idx
        (docHashOf env (files.getD idx default))) := by
  have hne : ¬ (files.isEmpty = true) := by
    cases files
    · simp at hidx
    · simp
  rw [addDocumentsFromFiles, if_neg hne, hdh] at hrun
  rcases ingestLoop_error_on_dup fuel env store (coptsOf options) files idx 0
      ⟨[], 0, 0, []⟩ hidx hpre hmatch with hl | hl
  · rw [hl] at hrun
    cases hrun
  · rw [show (0 : Nat) + idx = idx from by omega] at hl
    rw [hl] at hrun
    simp only [Option.some.injEq, Prod.mk.injEq] at hrun
    exact ⟨hrun.2.symm, hrun.1.symm⟩

def c7Store : VectorStore :=
  ⟨[⟨"id0", "x".toList, ⟨[], 0, 0, 1, .txt, "f::x", some "f".toList⟩⟩]⟩

def c7File : DocumentFileInput := ⟨"x".toList, .txt, [], none, some "f".toList⟩

/-- A concrete environment for the ingestion examples: the digest is the
    hashed byte sequence itself and the decoder is the identity. -/
def sampleEnv : IngestEnv := ⟨String.mk, fun _ s => s, 0⟩

theorem addDocumentsFromFiles_error_aborts_all_witness :
    (match addDocumentsFromFiles 5 sampleEnv c7Store [c7File]
        (some ⟨none, some .error⟩) with
      | some (_, store') => store'
      | none => c7Store) = c7Store :=
  have h := addDocumentsFromFiles_error_aborts_all 5 sampleEnv c7Store [c7File]
    (some ⟨none, some .error⟩) 0 rfl (by decide)
    (fun j hj => absurd hj (by omega)) (by decide) _ _ rfl
  by rw [show addDocumentsFromFiles 5 sampleEnv c7Store [c7File]
        (some ⟨none, some .error⟩) =
      some (Except.error ("Failed to add documents from files: " ++
        dupErrorMsg ([c7File].getD 0 default) 0
          (docHashOf sampleEnv ([c7File].getD 0 default))),
        c7Store) from rfl]

/-- A stored chunk that carries `c7File`'s document hash but has empty
    content — exactly what the ingestion pipeline stores when a produced
    chunk is empty. -/
def c7EmptyDoc : StoredDoc :=
  ⟨"id0", [], ⟨[], 0, 0, 1, .txt, "f::x", some "f".toList⟩⟩

def c7EmptyStore : VectorStore := ⟨[c7EmptyDoc]⟩

/-- **C7 counterexample**: a file's document hash *does* match a chunk
    already stored, yet with `duplicateHandling = error` the call does not
    fail and the store is not left unchanged.  The stored chunk's content
    is empty, so the source's `if (id && content)` filter drops it from the
    duplicate query's result, `existingDocs.length > 0` is false, and the
    file is ingested normally: the call returns `{added: 1}` and upserts a
    new chunk next to the old one. -/
theorem duplicate_error_missed_counterexample :
    c7EmptyDoc ∈ c7EmptyStore.docs ∧
    c7EmptyDoc.meta.documentHash = docHashOf sampleEnv c7File ∧
    addDocumentsFromFiles 5 sampleEnv c7EmptyStore [c7File]
        (some ⟨none, some .error⟩) =
      some (.ok ⟨1, 0, 0⟩, ⟨c7EmptyStore.docs ++
        [⟨"f_0_chunk_0", "x".toList,
          ⟨[], 0, 0, 1, .txt, "f::x", some "f".toList⟩⟩]⟩) :=
  ⟨by decide, rfl, rfl⟩

/-- Every chunk record a file contributes carries that file's document
    hash in its metadata. -/
theorem ingestFile_ok_allDocs (fuel : Nat) (env : IngestEnv) (store : VectorStore)
    (dh : DuplicateHandling) (copts : ChunkingOptions)
    (i : Nat) (f : DocumentFileInput) (st st' : IngestState)
    (h : ingestFile fuel env store dh copts i f st = some (.ok st')) :
    ∀ d ∈ st'.allDocs, d ∈ st.allDocs ∨ d.meta.documentHash = docHashOf env f := by
  simp only [ingestFile] at h
  split at h
  · cases h
  · -- `continue` (the skip branch): only the counter changes
    rename_i st2 heq
    split at heq
    · split at heq
      · cases heq
        cases h
        intro d hd
        exact Or.inl hd
      · cases heq
      · cases heq
      · cases heq
    · cases heq
  · -- proceed: the state keeps its documents, then gains this file's chunks
    rename_i st2 heq
    have hall : st2.allDocs = st.allDocs := by
      split at heq
      · split at heq
        · cases heq
        · cases heq
        · cases heq; rfl
        · cases heq; rfl
      · cases heq; rfl
    split at h
    · cases h
      intro d hd
      exact Or.inl (hall ▸ hd)
    · split at h
      · cases h
      · cases h
        intro d hd
        rw [List.mem_append] at hd
        rcases hd with hd | hd
        · exact Or.inl (hall ▸ hd)
        · right
          rcases List.mem_map.mp hd with ⟨ci, -, rfl⟩
          rfl

/-- With `duplicateHandling = skip` and a hash match, a file only bumps the
    `skipped` counter. -/
theorem ingestFile_skip_dup (fuel : Nat) (env : IngestEnv) (store : VectorStore)
    (copts : ChunkingOptions) (i : Nat) (f : DocumentFileInput) (st : IngestState)
    (hex : findDocumentsByHash store (docHashOf env f) ≠ []) :
    ingestFile fuel env store .skip copts i f st =
      some (.ok {st with skipped := st.skipped + 1}) := by
  simp only [ingestFile]
  rw [if_pos ⟨by simp, hex⟩]

/-- A file whose decoded text `" .  . "` is chunked — with the recursive
    strategy, `chunkSize = 1` and `chunkOverlap = 1` — into exactly two
    chunks, both of them *empty* (every accumulated group is whitespace-only
    after its `". "` separators are consumed, and the flush pushes the
    group trimmed without checking it is non-empty). -/
def c8PathFile : DocumentFileInput :=
  ⟨" .  . ".toList, .txt, [], none, some "f".toList⟩

def c8PathOpts : Option AddDocumentsFromFilesOptions :=
  some ⟨some ⟨some .recursive, some 1, some 1, none⟩, some .skip⟩

def c8PathDoc (i : Nat) : StoredDoc :=
  ⟨"f_0_chunk_" ++ toString i, [],
    ⟨[], 0, i, 2, .txt, "f:: .  . ", some "f".toList⟩⟩

def c8PathStore1 : VectorStore := ⟨[c8PathDoc 0, c8PathDoc 1]⟩

/-- **C8 counterexample**: ingesting the same file input a second time with
    `duplicateHandling = skip`, after a first call stored its chunks, need
    *not* return `added = 0`: when every chunk the first call stored has
    empty content (the recursive strategy can produce only empty chunks
    from non-whitespace text, as `chunkText(" .  . ", {recursive, 1, 1}) =
    ["", ""]` shows), the second call's duplicate query drops all of them
    via `if (id && content)`, finds nothing, and re-ingests the file: it
    returns `added = 2` with `skipped = 0` and writes two more chunks. -/
theorem skip_reingests_counterexample :
    chunkText 9 " .  . ".toList ⟨some .recursive, some 1, some 1, none⟩ =
      some [[], []] ∧
    addDocumentsFromFiles 9 sampleEnv ⟨[]⟩ [c8PathFile] c8PathOpts =
      some (.ok ⟨2, 0, 0⟩, c8PathStore1) ∧
    addDocumentsFromFiles 9 sampleEnv c8PathStore1 [c8PathFile] c8PathOpts =
      some (.ok ⟨2, 0, 0⟩, ⟨c8PathStore1.docs ++ c8PathStore1.docs⟩) :=
  ⟨rfl, rfl, rfl⟩

/-- **C8 (amended)**: ingesting the same file input (same bytes, same
    filename) a second time with `duplicateHandling = skip`, after a first
    call stored its chunks, returns `added = 0` with `skipped = 1` for that
    file and `replaced = 0`, and writes nothing — the store after the
    second call is exactly the store after the first — *provided* at least
    one chunk carrying the file's document hash sits in the store with a
    non-empty id and non-empty content, so that the duplicate query can see
    it.  Chunk ids are never empty, so the proviso fails only when every
    stored chunk for the file has empty content: see the counterexample. -/
theorem addDocumentsFromFiles_skip_idempotent (fuel : Nat) (env : IngestEnv)
    (store st1 : VectorStore) (f : DocumentFileInput)
    (opts1 opts2 : Option AddDocumentsFromFilesOptions) (r1 : IngestResult)
    (h1 : addDocumentsFromFiles fuel env store [f] opts1 = some (.ok r1, st1))
    (hadded : 0 < r1.added)
    (hcont : ∃ d ∈ st1.docs, d.meta.documentHash = docHashOf env f ∧
      d.id ≠ "" ∧ d.content ≠ [])
    (hdh2 : dhOf opts2 = .skip) :
    addDocumentsFromFiles fuel env st1 [f] opts2 = some (.ok ⟨0, 1, 0⟩, st1) := by
  have hex : findDocumentsByHash st1 (docHashOf env f) ≠ [] := by
    obtain ⟨d, hd, hhash, hid, hct⟩ := hcont
    intro hcon
    have hida : d.id.isEmpty = false := by
      rw [Bool.eq_false_iff]
      intro hc
      exact hid ((String.isEmpty_iff d.id).mp hc)
    have hcta : d.content.isEmpty = false := by
      rw [Bool.eq_false_iff]
      intro hc
      exact hct (by simpa using hc)
    have hmem : d ∈ findDocumentsByHash st1 (docHashOf env f) := by
      unfold findDocumentsByHash
      rw [List.mem_filter, List.mem_filter]
      exact ⟨⟨hd, by simp [hhash]⟩, by simp [hida, hcta]⟩
    rw [hcon] at hmem
    cases hmem
  rw [addDocumentsFromFiles, if_neg (by simp), hdh2]
  rw [show ingestLoop fuel env st1 .skip (coptsOf opts2) 0 [f]
      ⟨[], 0, 0, []⟩ = some (.ok ⟨[], 1, 0, []⟩) from by
    rw [ingestLoop, ingestFile_skip_dup fuel env st1 (coptsOf opts2) 0 f
      ⟨[], 0, 0, []⟩ hex]
    rfl]
  rfl

def c8File : DocumentFileInput := ⟨"hello".toList, .txt, [], none, some "f".toList⟩

def c8Store : VectorStore :=
  ⟨[⟨"f_0_chunk_0", "hello".toList, ⟨[], 0, 0, 1, .txt, "f::hello", some "f".toList⟩⟩]⟩

theorem addDocumentsFromFiles_skip_idempotent_witness :
    addDocumentsFromFiles 5 sampleEnv c8Store [c8File] none =
      some (.ok ⟨0, 1, 0⟩, c8Store) :=
  addDocumentsFromFiles_skip_idempotent 5 sampleEnv ⟨[]⟩ c8Store c8File none none
    ⟨1, 0, 0⟩ rfl (by decide) (by decide) rfl

/-- With `duplicateHandling = replace`, a hash match followed by an
    empty/whitespace-only decode queues the existing ids for deletion,
    bumps `replaced`, then bumps `skipped` and contributes no chunks. -/
theorem ingestFile_replace_empty (fuel : Nat) (env : IngestEnv)
    (store : VectorStore) (copts : ChunkingOptions) (i : Nat)
    (f : DocumentFileInput) (st : IngestState)
    (hex : findDocumentsByHash store (docHashOf env f) ≠ [])
    (htext : trimStr (env.decode f.type f.source) = []) :
    ingestFile fuel env store .replace copts i f st =
      some (.ok {st with
        toReplace := st.toReplace ++
          (findDocumentsByHash store (docHashOf env f)).map (·.id),
        replaced := st.replaced + 1,
        skipped := st.skipped + 1}) := by
  simp only [ingestFile]
  rw [if_pos ⟨by simp, hex⟩]
  split
  · rename_i e heq
    simp at heq
  · rename_i st2 heq
    simp at heq
  · rename_i st2 heq
    simp only [Except.ok.injEq, Sum.inr.injEq] at heq
    subst heq
    rw [if_pos (by rw [htext]; rfl)]

/-- **C10 (amended)**: with `duplicateHandling = replace`, when the
    duplicate query for the file's hash finds existing stored chunks (those
    with a non-empty id and non-empty content) and decoding yields empty or
    whitespace-only text, the call still deletes *the chunks the query
    returned* and returns `added = 0`, `skipped = 1`, `replaced = 1`, even
    though no replacement chunks are added.  Only the query's results are
    queued for deletion, so a stored chunk carrying the same hash with
    empty content survives the call: see the counterexample. -/
theorem addDocumentsFromFiles_replace_empty_text (fuel : Nat) (env : IngestEnv)
    (store : VectorStore) (f : DocumentFileInput)
    (opts : Option AddDocumentsFromFilesOptions)
    (hdh : dhOf opts = .replace)
    (hex : findDocumentsByHash store (docHashOf env f) ≠ [])
    (htext : trimStr (env.decode f.type f.source) = []) :
    addDocumentsFromFiles fuel env store [f] opts =
      some (.ok ⟨0, 1, 1⟩,
        deleteDocumentsStore store
          ((findDocumentsByHash store (docHashOf env f)).map (·.id))) := by
  rw [addDocumentsFromFiles, if_neg (by simp), hdh]
  rw [show ingestLoop fuel env store .replace (coptsOf opts) 0 [f] ⟨[], 0, 0, []⟩ =
      some (.ok ⟨[], 1, 1,
        (findDocumentsByHash store (docHashOf env f)).map (·.id)⟩) from by
    rw [ingestLoop, ingestFile_replace_empty fuel env store (coptsOf opts) 0 f
      ⟨[], 0, 0, []⟩ hex htext]
    rfl]
  have hne : ¬ ((((findDocumentsByHash store (docHashOf env f)).map
      (·.id)).isEmpty) = true) := by
    simp only [List.isEmpty_eq_true, List.map_eq_nil_iff]
    exact hex
  show (some (Except.ok (⟨0, 1, 1⟩ : IngestResult),
      if ((findDocumentsByHash store (docHashOf env f)).map (·.id)).isEmpty
      then store
      else deleteDocumentsStore store
        ((findDocumentsByHash store (docHashOf env f)).map (·.id))) :
    Option (Except String IngestResult × VectorStore)) =
    some (.ok ⟨0, 1, 1⟩, deleteDocumentsStore store
      ((findDocumentsByHash store (docHashOf env f)).map (·.id)))
  rw [if_neg hne]

theorem addDocumentsFromFiles_replace_empty_text_witness :
    addDocumentsFromFiles 5 ⟨String.mk, fun _ _ => "  ".toList, 0⟩ c8Store [c8File]
        (some ⟨none, some .replace⟩) =
      some (.ok ⟨0, 1, 1⟩, ⟨[]⟩) := by
  have h := addDocumentsFromFiles_replace_empty_text 5
    ⟨String.mk, fun _ _ => "  ".toList, 0⟩ c8Store c8File
    (some ⟨none, some .replace⟩) rfl (by decide) (by decide)
  rw [h]
  rfl

def c10Doc1 : StoredDoc :=
  ⟨"f_0_chunk_0", "hello".toList, ⟨[], 0, 0, 2, .txt, "f::hello", some "f".toList⟩⟩

/-- A second stored chunk of the *same* document hash whose content is
    empty. -/
def c10Doc2 : StoredDoc :=
  ⟨"f_0_chunk_1", [], ⟨[], 0, 1, 2, .txt, "f::hello", some "f".toList⟩⟩

def c10Store : VectorStore := ⟨[c10Doc1, c10Doc2]⟩

/-- **C10 counterexample**: with `duplicateHandling = replace` and an
    empty-text decode, the previously stored chunks are *not* all removed
    from the store.  Of two stored chunks carrying the file's hash, only
    the one with non-empty content is returned by the duplicate query and
    queued for deletion; the empty-content chunk is dropped by
    `if (id && content)` and survives the call, which still reports
    `replaced = 1`. -/
theorem replace_leaves_empty_chunk_counterexample :
    c10Doc2 ∈ c10Store.docs ∧
    c10Doc2.meta.documentHash = docHashOf ⟨String.mk, fun _ _ => "  ".toList, 0⟩ c8File ∧
    addDocumentsFromFiles 5 ⟨String.mk, fun _ _ => "  ".toList, 0⟩ c10Store
        [c8File] (some ⟨none, some .replace⟩) =
      some (.ok ⟨0, 1, 1⟩, ⟨[c10Doc2]⟩) :=
  ⟨by decide, rfl, rfl⟩

/-! ## AgentLoopController (`invokeAgent` in `settings.ts`) -/

/-- A tool call carried by a model response. -/
structure ToolCall where
  id : String
  name : String
  args : String
deriving DecidableEq, Repr

/-- `doc.metadata` of a retrieved document: the `filename` key plus any
    other keys. -/
structure DocMeta where
  filename : Option String := none
  extra : MetadataMap := []
deriving DecidableEq, Repr

/-- One `{content, metadata}` entry of a retriever tool result. -/
structure RetrievedDoc where
  content : String
  metadata : Option DocMeta := none
deriving DecidableEq, Repr

/-- A tool invocation result as seen by `extractCitations` after
    `JSON.parse`: either a JSON array of documents, or anything else (a
    diagnostic string, unparsable text, a non-array JSON value), which the
    citation extractor ignores. -/
inductive ToolResult
  | docs (ds : List RetrievedDoc)
  | other (s : String)
deriving DecidableEq, Repr

/-- `typeof toolResult === 'string' ? toolResult : JSON.stringify(toolResult)`.
    JSON serialisation is an external library call; the loop never inspects
    the produced text, so an arbitrary fixed rendering stands in for it. -/
def toolResultContent : ToolResult → String
  | .docs ds => String.join (ds.map (·.content))
  | .other s => s

/-- A registered tool: a name and an executor that may throw. -/
structure ToolSpec where
  name : String
  run : String → Except String ToolResult

/-- A `Citation` record. -/
structure Citation where
  id : Nat
  content : String
  metadata : DocMeta
  usedInIteration : Nat
  usedByMessageId : Option String
deriving DecidableEq, Repr

/-- Conversation messages.  Tool-result messages are pushed as plain object
    literals in the source and therefore carry no `id`. -/
inductive Msg
  | system (content : String)
  | human (id : Option String) (content : String)
  | ai (id : Option String) (content : String) (toolCalls : List ToolCall)
  | toolMsg (content : String) (toolCallId : String)
deriving DecidableEq, Repr

def msgId : Msg → Option String
  | .ai i _ _ => i
  | .human i _ => i
  | .system _ => none
  | .toolMsg _ _ => none

/-- A model response. -/
structure AIResp where
  id : Option String := none
  content : String := ""
  toolCalls : List ToolCall := []
deriving DecidableEq, Repr

/-- The model capability: full message history in, one response out
    (spec §6). -/
abbrev Model := List Msg → AIResp

def RETRIEVER_TOOL_NAME : String := "search_knowledge_base"

/-- The mutable state captured by `invokeAgent`'s closures: the message
    history, the run-wide citation list, the ids of the citations currently
    in the `pendingCitations` buffer (the buffer aliases the run-wide
    list's objects, so linking mutates both), the `citationIdCounter`, and
    the number of model invocations made so far. -/
structure AgentState where
  messages : List Msg
  citations : List Citation
  pending : List Nat
  counter : Nat
  invocations : Nat
deriving Repr

/-- `extractCitations(toolName, toolResult, iteration)`: only retriever
    results are parsed; each array entry not already present — keyed on
    `(content, metadata.filename)` over the whole run — becomes a new
    pending Citation. -/
def extractCitations (toolName : String) (toolResult : ToolResult)
    (iteration : Nat) (s : AgentState) : AgentState :=
  if toolName ≠ RETRIEVER_TOOL_NAME then s
  else
    match toolResult with
    | .other _ => s
    | .docs ds =>
      ds.foldl (fun s doc =>
        let fn := doc.metadata.bind (·.filename)
        if s.citations.any (fun c =>
            c.content == doc.content && c.metadata.filename == fn) then s
        else
          { s with
            counter := s.counter + 1,
            pending := s.pending ++ [s.counter],
            citations := s.citations ++ [{
              id := s.counter, content := doc.content,
              metadata := doc.metadata.getD {}, usedInIteration := iteration,
              usedByMessageId := none }] }) s

/-- `linkPendingCitations(messageId)`: stamp every pending citation and
    clear the buffer. -/
def linkPendingCitations (messageId : String) (s : AgentState) : AgentState :=
  if s.pending.isEmpty then s
  else
    { s with
      citations := s.citations.map (fun c =>
        if s.pending.contains c.id then {c with usedByMessageId := some messageId}
        else c),
      pending := [] }

/-- `if (message.id) linkPendingCitations(message.id)` — an absent *or
    empty* id is falsy, so nothing is linked. -/
def linkIfId (i : Option String) (s : AgentState) : AgentState :=
  match i with
  | some mid => if mid.isEmpty then s else linkPendingCitations mid s
  | none => s

/-- `executeToolCall`: unknown tools and throwing tools become in-band
    error tool messages; successful retriever results feed the citation
    extractor. -/
def executeToolCall (tools : List ToolSpec) (tc : ToolCall) (iteration : Nat)
    (s : AgentState) : AgentState :=
  match tools.find? (fun t => t.name == tc.name) with
  | none =>
    { s with messages := s.messages ++
        [.toolMsg ("Error: Tool '" ++ tc.name ++ "' not found") tc.id] }
  | some tool =>
    match tool.run tc.args with
    | .ok toolResult =>
      let s' := extractCitations tc.name toolResult iteration s
      { s' with messages := s'.messages ++
          [.toolMsg (toolResultContent toolResult) tc.id] }
    | .error e =>
      { s with messages := s.messages ++
          [.toolMsg ("Error executing tool: " ++ e) tc.id] }

/-- The result of `invokeAgent` (without the structured-output extension,
    which is a second model call layered on top): all messages, the final
    response, the citation list (omitted — `none` — when empty), and the
    number of model invocations. -/
structure InvokeAgentResult where
  messages : List Msg
  response : Msg
  citations : Option (List Citation)
  invocations : Nat
deriving Repr

def dfltMsg : Msg := .ai none "" []

/-- `createResult`: drop the injected system message from the output,
    omit `citations` when none were collected. -/
def createResult (s : AgentState) (response : Msg) (excludeSystem : Bool) :
    InvokeAgentResult :=
  { messages := if excludeSystem then s.messages.drop 1 else s.messages,
    response := response,
    citations := if s.citations.isEmpty then none else some s.citations,
    invocations := s.invocations }

/-- The `while (iteration < maxIterations)` tool-calling loop; `remaining`
    counts down from `maxIterations = 5`.  On exhaustion the last message
    in history becomes the result and pending citations are linked to it
    only when it has an id. -/
def agentLoop (model : Model) (tools : List ToolSpec) (excludeSystem : Bool) :
    Nat → Nat → AgentState → InvokeAgentResult
  | 0, _, s =>
    let finalMessage := s.messages.getLastD dfltMsg
    createResult (linkIfId (msgId finalMessage) s) finalMessage excludeSystem
  | remaining + 1, iteration, s =>
    let iteration := iteration + 1
    let response := model s.messages
    let s := { s with
      invocations := s.invocations + 1,
      messages := s.messages ++
        [.ai response.id response.content response.toolCalls] }
    if response.toolCalls.isEmpty then
      createResult (linkIfId response.id s)
        (.ai response.id response.content response.toolCalls) excludeSystem
    else
      agentLoop model tools excludeSystem remaining iteration
        (response.toolCalls.foldl
          (fun s tc => executeToolCall tools tc iteration s) s)

/-- `invokeAgent(params)`: build the message history (optional system
    prompt first), short-circuit to one direct model call when there are no
    tools, otherwise run the bounded loop. -/
def invokeAgent (model : Model) (tools : List ToolSpec)
    (systemPrompt : Option String) (messages : List Msg) : InvokeAgentResult :=
  let allMessages := match systemPrompt with
    | some p => Msg.system p :: messages
    | none => messages
  if tools.isEmpty then
    let response := model allMessages
    { messages := [.ai response.id response.content response.toolCalls],
      response := .ai response.id response.content response.toolCalls,
      citations := none,
      invocations := 1 }
  else
    agentLoop model tools systemPrompt.isSome 5 0 ⟨allMessages, [], [], 0, 0⟩

theorem linkPendingCitations_invocations (mid : String) (s : AgentState) :
    (linkPendingCitations mid s).invocations = s.invocations := by
  unfold linkPendingCitations
  split <;> rfl

theorem linkIfId_invocations (i : Option String) (s : AgentState) :
    (linkIfId i s).invocations = s.invocations := by
  unfold linkIfId
  cases i with
  | none => rfl
  | some mid =>
    by_cases h : mid.isEmpty <;>
      simp [h, linkPendingCitations_invocations]

theorem linkPendingCitations_messages (mid : String) (s : AgentState) :
    (linkPendingCitations mid s).messages = s.messages := by
  unfold linkPendingCitations
  split <;> rfl

theorem linkIfId_messages (i : Option String) (s : AgentState) :
    (linkIfId i s).messages = s.messages := by
  unfold linkIfId
  cases i with
  | none => rfl
  | some mid =>
    by_cases h : mid.isEmpty <;>
      simp [h, linkPendingCitations_messages]

theorem extractCitations_invocations (toolName : String) (toolResult : ToolResult)
    (iteration : Nat) (s : AgentState) :
    (extractCitations toolName toolResult iteration s).invocations =
      s.invocations := by
  unfold extractCitations
  split
  · rfl
  · match toolResult with
    | .other _ => rfl
    | .docs ds =>
      show (ds.foldl _ s).invocations = s.invocations
      induction ds generalizing s with
      | nil => rfl
      | cons d ds ih =>
        rw [List.foldl_cons, ih]
        dsimp only
        split <;> rfl

theorem executeToolCall_invocations (tools : List ToolSpec) (tc : ToolCall)
    (iteration : Nat) (s : AgentState) :
    (executeToolCall tools tc iteration s).invocations = s.invocations := by
  unfold executeToolCall
  split
  · rfl
  · split
    · simp [extractCitations_invocations]
    · rfl

theorem foldl_executeToolCall_invocations (tools : List ToolSpec)
    (iteration : Nat) :
    ∀ (tcs : List ToolCall) (s : AgentState),
      (tcs.foldl (fun s tc => executeToolCall tools tc iteration s) s).invocations =
        s.invocations := by
  intro tcs
  induction tcs with
  | nil => intro s; rfl
  | cons tc tcs ih =>
    intro s
    rw [List.foldl_cons, ih, executeToolCall_invocations]

/-- A model that always asks for tools drives the loop through all its
    remaining iterations; the result is the last message in history. -/
theorem agentLoop_always_toolCalls (model : Model) (tools : List ToolSpec)
    (hmodel : ∀ ms, (model ms).toolCalls ≠ []) :
    ∀ (remaining iteration : Nat) (s : AgentState),
      (agentLoop model tools false remaining iteration s).invocations =
        s.invocations + remaining ∧
      (agentLoop model tools false remaining iteration s).response =
        (agentLoop model tools false remaining iteration s).messages.getLastD
          dfltMsg := by
  intro remaining
  induction remaining with
  | zero =>
    intro iteration s
    constructor
    · show (createResult _ _ _).invocations = _
      simp [createResult, linkIfId_invocations]
    · have hm : (agentLoop model tools false 0 iteration s).messages =
          s.messages := by
        show (createResult _ _ _).messages = _
        simp [createResult, linkIfId_messages]
      rw [hm]
      rfl
  | succ rem ih =>
    intro iteration s
    have hne : ¬ ((model s.messages).toolCalls.isEmpty = true) := by
      simp only [List.isEmpty_eq_true]
      exact hmodel s.messages
    simp only [agentLoop]
    rw [if_neg hne]
    refine ⟨?_, (ih _ _).2⟩
    rw [(ih _ _).1, foldl_executeToolCall_invocations]
    simp only []
    omega

/-- **C3**: the tool-calling loop is bounded by exactly 5 iterations.  A
    model capability that always returns tool calls is invoked exactly 5
    times and the run then terminates normally, returning the last message
    in history (not a failure); a model that never returns tool calls is
    invoked exactly once. -/
theorem invokeAgent_iteration_bound (model : Model) (tools : List ToolSpec)
    (messages : List Msg) (htools : tools ≠ []) :
    ((∀ ms, (model ms).toolCalls ≠ []) →
      (invokeAgent model tools none messages).invocations = 5 ∧
      (invokeAgent model tools none messages).response =
        (invokeAgent model tools none messages).messages.getLastD dfltMsg) ∧
    ((∀ ms, (model ms).toolCalls = []) →
      (invokeAgent model tools none messages).invocations = 1) := by
  have hne : ¬ (tools.isEmpty = true) := by
    simp only [List.isEmpty_eq_true]
    exact htools
  constructor
  · intro hmodel
    simp only [invokeAgent]
    rw [if_neg hne]
    have h := agentLoop_always_toolCalls model tools hmodel 5 0 ⟨messages, [], [], 0, 0⟩
    exact ⟨by simpa using h.1, h.2⟩
  · intro hmodel
    simp only [invokeAgent]
    rw [if_neg hne]
    show (agentLoop model tools false 5 0 ⟨messages, [], [], 0, 0⟩).invocations = 1
    have hstep : agentLoop model tools false 5 0 ⟨messages, [], [], 0, 0⟩ =
        createResult
          (linkIfId (model messages).id
            ⟨messages ++ [.ai (model messages).id (model messages).content
              (model messages).toolCalls], [], [], 0, 1⟩)
          (.ai (model messages).id (model messages).content
            (model messages).toolCalls) false := by
      rw [show (5 : Nat) = 4 + 1 from rfl]
      simp only [agentLoop]
      rw [if_pos (by simp [hmodel messages])]
    rw [hstep]
    simp [createResult, linkIfId_invocations]

theorem invokeAgent_iteration_bound_witness :
    (invokeAgent (fun _ => ⟨some "m", "", [⟨"c1", "t", "a"⟩]⟩)
      [⟨"t", fun _ => .ok (.other "r")⟩] none [.human none "q"]).invocations = 5 :=
  ((invokeAgent_iteration_bound (fun _ => ⟨some "m", "", [⟨"c1", "t", "a"⟩]⟩)
      [⟨"t", fun _ => .ok (.other "r")⟩] [.human none "q"] (by simp)).1
    (fun _ => by simp)).1

/-- No two citations of a run may share both `content` and
    `metadata.filename` (spec §3, Citation invariant). -/
def CitKeyDistinct (a b : Citation) : Prop :=
  ¬ (a.content = b.content ∧ a.metadata.filename = b.metadata.filename)

/-- The state invariant maintained by the agent loop: citation keys are
    pairwise distinct, and every citation is either still pending or
    already linked to a message. -/
def CitInv (s : AgentState) : Prop :=
  List.Pairwise CitKeyDistinct s.citations ∧
  ∀ c ∈ s.citations, c.id ∈ s.pending ∨ c.usedByMessageId.isSome = true

theorem metaFilename_getD (m : Option DocMeta) :
    (m.getD ⟨none, []⟩).filename = m.bind (·.filename) := by
  cases m <;> rfl

theorem extractCitations_inv (toolName : String) (toolResult : ToolResult)
    (iteration : Nat) (s : AgentState) (h : CitInv s) :
    CitInv (extractCitations toolName toolResult iteration s) := by
  unfold extractCitations
  split
  · exact h
  · match toolResult with
    | .other _ => exact h
    | .docs ds =>
      show CitInv (ds.foldl _ s)
      induction ds generalizing s with
      | nil => exact h
      | cons d ds ih =>
        rw [List.foldl_cons]
        apply ih
        dsimp only
        split
        · exact h
        · rename_i hc
          rw [Bool.not_eq_true] at hc
          constructor
          · rw [List.pairwise_append]
            refine ⟨h.1, List.pairwise_singleton _ _, ?_⟩
            intro a ha b hb
            rcases List.mem_singleton.mp hb with rfl
            have hthis := List.any_eq_false.mp hc a ha
            simp only [Bool.and_eq_true, beq_iff_eq, not_and] at hthis
            intro hcontra
            obtain ⟨h1, h2⟩ := hcontra
            dsimp only at h1 h2
            rw [metaFilename_getD] at h2
            exact hthis h1 h2
          · intro c hcmem
            rcases List.mem_append.mp hcmem with hcm | hcm
            · rcases h.2 c hcm with hp | hl
              · exact Or.inl (List.mem_append.mpr (Or.inl hp))
              · exact Or.inr hl
            · rcases List.mem_singleton.mp hcm with rfl
              exact Or.inl (List.mem_append.mpr (Or.inr (by simp)))

theorem linkPendingCitations_inv (mid : String) (s : AgentState) (h : CitInv s) :
    CitInv (linkPendingCitations mid s) := by
  unfold linkPendingCitations
  split
  · exact h
  · constructor
    · refine h.1.map _ ?_
      intro a b hab
      intro hcontra
      apply hab
      obtain ⟨h1, h2⟩ := hcontra
      constructor
      · revert h1
        split <;> split <;> simp
      · revert h2
        split <;> split <;> simp
    · intro c hc
      rcases List.mem_map.mp hc with ⟨c0, hc0, rfl⟩
      right
      split
      · rfl
      · rename_i hnp
        rcases h.2 c0 hc0 with hp | hl
        · exact absurd (by simpa using hp) hnp
        · exact hl

/-- After `linkPendingCitations`, every citation that satisfied the
    invariant is linked. -/
theorem linkPendingCitations_links (mid : String) (s : AgentState)
    (h : ∀ c ∈ s.citations, c.id ∈ s.pending ∨ c.usedByMessageId.isSome = true) :
    ∀ c ∈ (linkPendingCitations mid s).citations,
      c.usedByMessageId.isSome = true := by
  unfold linkPendingCitations
  split
  · rename_i hemp
    intro c hc
    rcases h c hc with hp | hl
    · rw [List.isEmpty_eq_true] at hemp
      rw [hemp] at hp
      cases hp
    · exact hl
  · intro c hc
    rcases List.mem_map.mp hc with ⟨c0, hc0, rfl⟩
    split
    · rfl
    · rename_i hnp
      rcases h c0 hc0 with hp | hl
      · exact absurd (by simpa using hp) hnp
      · exact hl

theorem linkIfId_inv (i : Option String) (s : AgentState) (h : CitInv s) :
    CitInv (linkIfId i s) := by
  cases i with
  | none => exact h
  | some mid =>
    show CitInv (if mid.isEmpty = true then s else linkPendingCitations mid s)
    split
    · exact h
    · exact linkPendingCitations_inv mid s h

theorem linkIfId_links (mid : String) (s : AgentState) (h : CitInv s)
    (hmid : ¬ mid.isEmpty = true) :
    ∀ c ∈ (linkIfId (some mid) s).citations,
      c.usedByMessageId.isSome = true := by
  show ∀ c ∈ (if mid.isEmpty = true then s
      else linkPendingCitations mid s).citations, _
  rw [if_neg hmid]
  exact linkPendingCitations_links mid s h.2

theorem executeToolCall_inv (tools : List ToolSpec) (tc : ToolCall)
    (iteration : Nat) (s : AgentState) (h : CitInv s) :
    CitInv (executeToolCall tools tc iteration s) := by
  unfold executeToolCall
  split
  · exact h
  · split
    · rename_i toolResult heq
      have hx := extractCitations_inv tc.name toolResult iteration s h
      exact ⟨hx.1, hx.2⟩
    · exact h

theorem foldl_executeToolCall_inv (tools : List ToolSpec) (iteration : Nat) :
    ∀ (tcs : List ToolCall) (s : AgentState), CitInv s →
      CitInv (tcs.foldl (fun s tc => executeToolCall tools tc iteration s) s) := by
  intro tcs
  induction tcs with
  | nil => intro s h; exact h
  | cons tc tcs ih =>
    intro s h
    rw [List.foldl_cons]
    exact ih _ (executeToolCall_inv tools tc iteration s h)

/-- The state after one model call in the loop body: invocation counter
    bumped and the AI response appended to the history. -/
def stepState (model : Model) (s : AgentState) : AgentState :=
  { s with
    invocations := s.invocations + 1,
    messages := s.messages ++
      [.ai (model s.messages).id (model s.messages).content
        (model s.messages).toolCalls] }

theorem createResult_citations_pairwise (s : AgentState) (resp : Msg) (ex : Bool)
    (h : List.Pairwise CitKeyDistinct s.citations) :
    List.Pairwise CitKeyDistinct ((createResult s resp ex).citations.getD []) := by
  unfold createResult
  dsimp only
  split
  · simp
  · simpa using h

theorem createResult_citations_sub (s : AgentState) (resp : Msg) (ex : Bool)
    (c : Citation) (hc : c ∈ (createResult s resp ex).citations.getD []) :
    c ∈ s.citations := by
  unfold createResult at hc
  dsimp only at hc
  split at hc
  · cases hc
  · simpa using hc

/-- The loop-wide citation facts: keys stay pairwise distinct, and if the
    returned response is an AI message carrying a non-empty id, every
    citation in the result is linked. -/
theorem agentLoop_citations (model : Model) (tools : List ToolSpec) (excl : Bool) :
    ∀ (remaining iteration : Nat) (s : AgentState), CitInv s →
      List.Pairwise CitKeyDistinct
        ((agentLoop model tools excl remaining iteration s).citations.getD []) ∧
      (∀ mid content tcs2,
        (agentLoop model tools excl remaining iteration s).response =
          .ai (some mid) content tcs2 →
        ¬ mid.isEmpty = true →
        ∀ c ∈ (agentLoop model tools excl remaining iteration s).citations.getD [],
          c.usedByMessageId.isSome = true) := by
  intro remaining
  induction remaining with
  | zero =>
    intro iteration s h
    constructor
    · exact createResult_citations_pairwise _ _ _ (linkIfId_inv _ s h).1
    · intro mid content tcs2 hresp hmid c hc
      have hfm : s.messages.getLastD dfltMsg = .ai (some mid) content tcs2 := hresp
      have hsub : c ∈ (linkIfId (msgId (s.messages.getLastD dfltMsg)) s).citations :=
        createResult_citations_sub _ _ _ c hc
      rw [hfm] at hsub
      simp only [msgId] at hsub
      exact linkIfId_links mid s h hmid c hsub
  | succ rem ih =>
    intro iteration s h
    have h2 : CitInv (stepState model s) := h
    by_cases hemp : (model s.messages).toolCalls.isEmpty = true
    · have hred : agentLoop model tools excl (rem + 1) iteration s =
          createResult (linkIfId (model s.messages).id (stepState model s))
            (.ai (model s.messages).id (model s.messages).content
              (model s.messages).toolCalls) excl := by
        simp only [agentLoop]
        rw [if_pos hemp]
        rfl
      rw [hred]
      constructor
      · exact createResult_citations_pairwise _ _ _ (linkIfId_inv _ _ h2).1
      · intro mid content tcs2 hresp hmid c hc
        have hid : (model s.messages).id = some mid := by
          have hr2 : Msg.ai (model s.messages).id (model s.messages).content
              (model s.messages).toolCalls = .ai (some mid) content tcs2 := hresp
          injection hr2 with h1 hx hy
        have hsub := createResult_citations_sub _ _ _ c hc
        rw [hid] at hsub
        exact linkIfId_links mid _ h2 hmid c hsub
    · have hred : agentLoop model tools excl (rem + 1) iteration s =
          agentLoop model tools excl rem (iteration + 1)
            ((model s.messages).toolCalls.foldl
              (fun s2 tc => executeToolCall tools tc (iteration + 1) s2)
              (stepState model s)) := by
        simp only [agentLoop]
        rw [if_neg hemp]
        rfl
      rw [hred]
      exact ih (iteration + 1) _ (foldl_executeToolCall_inv tools (iteration + 1) _ _ h2)

def isToolMsg : Msg → Bool
  | .toolMsg _ _ => true
  | _ => false

/-- A document whose `(content, metadata.filename)` pair will be observed
    repeatedly. -/
def c9Doc : RetrievedDoc := ⟨"doc content", some ⟨some "file.txt", []⟩⟩

def c9Tool : ToolSpec := ⟨RETRIEVER_TOOL_NAME, fun _ => .ok (.docs [c9Doc])⟩

/-- A model that requests a retriever call on each of its first two turns
    (so the same document is returned by two tool calls in two different
    iterations) and then answers with id `mf`. -/
def c9Model : Model := fun msgs =>
  if msgs.countP (fun m => isToolMsg m) < 2 then
    ⟨some "m", "", [⟨"c1", RETRIEVER_TOOL_NAME, "q"⟩]⟩
  else
    ⟨some "mf", "answer", []⟩

/-- C9: citation uniqueness is keyed on `(content, metadata.filename)` over
    the entire run: for every model, tool set, system prompt and message
    history, no two citations returned by `invokeAgent` share both fields;
    and concretely, a run whose retriever returns the same document in two
    tool calls across two iterations (three model invocations in total)
    produces exactly one Citation, recorded at its first observation
    (iteration 1). -/
theorem citation_dedup_unique :
    (∀ (model : Model) (tools : List ToolSpec) (systemPrompt : Option String)
        (messages : List Msg),
      List.Pairwise CitKeyDistinct
        ((invokeAgent model tools systemPrompt messages).citations.getD [])) ∧
    (invokeAgent c9Model [c9Tool] none [.human none "q"]).citations =
      some [⟨0, "doc content", ⟨some "file.txt", []⟩, 1, some "mf"⟩] ∧
    (invokeAgent c9Model [c9Tool] none [.human none "q"]).invocations = 3 := by
  refine ⟨?_, ?_, ?_⟩
  · intro model tools systemPrompt messages
    unfold invokeAgent
    dsimp only
    split
    · simp
    · exact (agentLoop_citations model tools systemPrompt.isSome 5 0 _
        ⟨List.Pairwise.nil, fun c hc => absurd hc (List.not_mem_nil c)⟩).1
  · rfl
  · rfl

def c2Doc : RetrievedDoc := ⟨"doc content", some ⟨some "file.txt", []⟩⟩

def c2Tool : ToolSpec := ⟨RETRIEVER_TOOL_NAME, fun _ => .ok (.docs [c2Doc])⟩

/-- A model that requests a retriever call on every turn, so the run ends
    by exhausting the 5-iteration cap. -/
def c2Model : Model := fun _ => ⟨some "m", "", [⟨"c1", RETRIEVER_TOOL_NAME, "q"⟩]⟩

/-- C2 counterexample: a run that used tools and completed by cap
    exhaustion leaves its citation unlinked.  The last message emitted is
    the tool-result message, which is pushed as a plain object literal and
    carries no `id`; `if (finalMessage.id)` is then falsy, so
    `linkPendingCitations` never runs and `usedByMessageId` stays null. -/
theorem citationsLinked_counterexample :
    (invokeAgent c2Model [c2Tool] none [.human none "q"]).invocations = 5 ∧
    (invokeAgent c2Model [c2Tool] none [.human none "q"]).response =
      .toolMsg "doc content" "c1" ∧
    (invokeAgent c2Model [c2Tool] none [.human none "q"]).citations =
      some [⟨0, "doc content", ⟨some "file.txt", []⟩, 1, none⟩] :=
  ⟨rfl, rfl, rfl⟩

/-- C2 amended: every citation of an `invokeAgent` run is linked provided
    the run's final response is an AI message with a non-empty id — i.e.
    linking happens when a model response without tool calls ends the run
    and that response carries an id; on cap exhaustion the final message is
    the last history entry, which links only if it has a (non-empty) id. -/
theorem citationsLinked_amended (model : Model) (tools : List ToolSpec)
    (systemPrompt : Option String) (messages : List Msg)
    (mid content : String) (tcs : List ToolCall)
    (hresp : (invokeAgent model tools systemPrompt messages).response =
      .ai (some mid) content tcs)
    (hmid : ¬ mid.isEmpty = true) :
    ∀ c ∈ (invokeAgent model tools systemPrompt messages).citations.getD [],
      c.usedByMessageId.isSome = true := by
  unfold invokeAgent at hresp ⊢
  dsimp only at hresp ⊢
  by_cases hemp : tools.isEmpty = true
  · rw [if_pos hemp]
    intro c hc
    simp at hc
  · rw [if_neg hemp] at hresp ⊢
    exact (agentLoop_citations model tools systemPrompt.isSome 5 0 _
        ⟨List.Pairwise.nil, fun c hc => absurd hc (List.not_mem_nil c)⟩).2
      mid content tcs hresp hmid

/-- A model that requests one retriever call, then answers with id `m2`. -/
def c2TwoPhase : Model := fun msgs =>
  if msgs.countP (fun m => isToolMsg m) < 1 then
    ⟨some "m", "", [⟨"c1", RETRIEVER_TOOL_NAME, "q"⟩]⟩
  else
    ⟨some "m2", "answer", []⟩

theorem citationsLinked_amended_witness :
    ((invokeAgent c2TwoPhase [c2Tool] none
        [.human none "q"]).citations.getD []).all
      (fun c => c.usedByMessageId.isSome) = true := by
  have h := citationsLinked_amended c2TwoPhase [c2Tool] none [.human none "q"]
    "m2" "answer" [] rfl (by decide)
  simp only [List.all_eq_true]
  intro c hc
  exact h c (by simpa using hc)
